import Mathlib

/-!
Verification development for the CacheManager repository.

Shallow embedding of the expiration-and-eviction engine:
* `src/src/expiration/TTLHeap.js` (class MinHeap),
* `src/src/core/Cache.js` (class MyCache),
* `src/src/eviction/LRUPolicy.js` (DoublyLinkedList / LRUNode),
* `src/src/taskQueue/TaskQueue.js`, `src/src/taskQueue/ScheduledTask.js`,
  `src/src/utils/debounce.js` (the scheduler).

Timestamps and durations are modelled as integers (`Int`); JavaScript's
`Infinity` sentinel for `expiresAt`/TTL is modelled by a dedicated
constructor.  Stateful JS code is modelled by explicit state passing; each
operation receives the value of `Date.now()` as an explicit `now` argument.
Throwing validation errors are modelled with `Except Unit`.
-/

namespace CacheSpec

deriving instance DecidableEq for Except

/-! ### Heap items (HeapItem of cache.types.js)

`{key: string, expiresAt: number}` — the priority is an expiry timestamp
(cache) or a next-execution timestamp (scheduler).  The cache only ever
pushes finite timestamps, so `expiresAt` here is a plain integer. -/

structure HeapItem where
  key : String
  expiresAt : Int
deriving DecidableEq, Repr

/-! ### A stable sort

`Array.prototype.sort(comparator)` is required by the ECMAScript spec to be
stable; the concrete algorithm is implementation defined.  We model it with
stable insertion sort: `lt a b = true` means the comparator puts `a`
strictly before `b`; elements comparing equal keep their original order. -/

def insertSorted (lt : α → α → Bool) (a : α) : List α → List α
  | [] => [a]
  | b :: t => if lt b a then b :: insertSorted lt a t else a :: b :: t

def stableSort (lt : α → α → Bool) (l : List α) : List α :=
  l.foldr (insertSorted lt) []

/-! ### MinHeap (src/src/expiration/TTLHeap.js)

The heap is the dense array `this.heap`; the auxiliary `keyToIndex` map is
kept in lockstep with it in the source, mapping each key to the index of its
(unique — `push` deduplicates) occurrence, so it is modelled as the derived
function `keyIdx` below rather than as separate state.

`bubbleUp`/`bubbleDown` are loops whose index strictly decreases
(respectively strictly increases while bounded by the array length), so we
give them an explicit fuel argument that is always sufficient:
`index + 1` iterations for `bubbleUp`, `length + 1` for `bubbleDown`. -/

def getExp (h : List HeapItem) (i : Nat) : Int :=
  ((h.get? i).map HeapItem.expiresAt).getD 0

/-- Swap the entries at indices `i` and `j` (the JS destructuring swap
`[heap[i], heap[j]] = [heap[j], heap[i]]`). -/
def swapIdx (h : List HeapItem) (i j : Nat) : List HeapItem :=
  match h.get? i, h.get? j with
  | some a, some b => (h.set i b).set j a
  | _, _ => h

/-- `_bubbleUp` with fuel; the loop condition and parent arithmetic follow
TTLHeap.js lines 175–194 (`parentIndex = Math.floor((index - 1) / 2)`). -/
def bubbleUpF : Nat → List HeapItem → Nat → List HeapItem
  | 0, h, _ => h
  | _, h, 0 => h
  | fuel + 1, h, i + 1 =>
    let p := i / 2
    if getExp h p ≤ getExp h (i + 1) then h
    else bubbleUpF fuel (swapIdx h p (i + 1)) p

def bubbleUp (h : List HeapItem) (i : Nat) : List HeapItem :=
  bubbleUpF (i + 1) h i

/-- `_bubbleDown` with fuel (TTLHeap.js lines 203–240). -/
def bubbleDownF : Nat → List HeapItem → Nat → List HeapItem
  | 0, h, _ => h
  | fuel + 1, h, i =>
    let l := 2 * i + 1
    let r := 2 * i + 2
    let m1 := if l < h.length ∧ getExp h l < getExp h i then l else i
    let m2 := if r < h.length ∧ getExp h r < getExp h m1 then r else m1
    if m2 = i then h else bubbleDownF fuel (swapIdx h i m2) m2

def bubbleDown (h : List HeapItem) (i : Nat) : List HeapItem :=
  bubbleDownF (h.length + 1) h i

/-- The index the lockstep `keyToIndex` map associates to `key`
(`undefined` = `none`). -/
def keyIdx (k : String) : List HeapItem → Option Nat
  | [] => none
  | it :: t => if it.key = k then some 0 else (keyIdx k t).map (· + 1)

/-- `MinHeap.remove(key)` (TTLHeap.js lines 125–166): returns whether the
key was found, and the resulting heap. -/
def heapRemove (h : List HeapItem) (k : String) : Bool × List HeapItem :=
  match keyIdx k h with
  | none => (false, h)
  | some i =>
    if i = h.length - 1 then (true, h.dropLast)
    else if h.length = 1 then (true, [])
    else
      match h.getLast? with
      | none => (true, h)
      | some last =>
        let h2 := (h.dropLast).set i last
        let h3 :=
          if 0 < i ∧ getExp h2 i < getExp h2 ((i - 1) / 2) then bubbleUp h2 i
          else bubbleDown h2 i
        (true, h3)

/-- `MinHeap.push(item)` (TTLHeap.js lines 39–49): if the key is already
present its old occurrence is removed first, then the item is appended and
sifted up. -/
def heapPush (h : List HeapItem) (it : HeapItem) : List HeapItem :=
  let h1 := if (keyIdx it.key h).isSome then (heapRemove h it.key).2 else h
  bubbleUp (h1 ++ [it]) h1.length

/-- `MinHeap.pop()` (TTLHeap.js lines 55–76). -/
def heapPop (h : List HeapItem) : Option HeapItem × List HeapItem :=
  match h with
  | [] => (none, [])
  | [a] => (some a, [])
  | a :: b :: t =>
    match (a :: b :: t).getLast? with
    | none => (some a, (a :: b :: t).dropLast)
    | some last => (some a, bubbleDown (((a :: b :: t).dropLast).set 0 last) 0)

/-- `MinHeap.peek()`. -/
def heapPeek (h : List HeapItem) : Option HeapItem :=
  h.head?

/-- `MinHeap.extractAll()` (TTLHeap.js lines 108–118): a copy sorted by
`expiresAt` (the comparator `(a, b) => a.expiresAt - b.expiresAt`), the heap
itself being cleared by the caller taking the returned list. -/
def extractAll (h : List HeapItem) : List HeapItem :=
  stableSort (fun a b => a.expiresAt < b.expiresAt) h

/-- The keys stored in a heap. -/
def heapKeys (h : List HeapItem) : List String :=
  h.map HeapItem.key

/-- All keys in the heap array are distinct — established by `push`'s
deduplication; used as part of the reachable-state invariant. -/
def NodupKeys (h : List HeapItem) : Prop :=
  (heapKeys h).Nodup

instance : DecidablePred NodupKeys := fun h =>
  inferInstanceAs (Decidable (heapKeys h).Nodup)

/-! ### Cache data model (src/src/core/Cache.js)

The entry table `this._entries` is a JS `Map`, modelled as an association
list with JS `Map` semantics: `set` of an existing key updates it in place
(keeping its iteration position), `set` of a new key appends, `delete`
removes.  Entry values are opaque payloads (`Int`); the clone/freeze
pipeline, which needs object-identity semantics, is modelled separately
below for the clone-isolation claim.

`expiresAt` is either a finite timestamp or JavaScript's `Infinity`. -/

inductive Expiry where
  | never
  | fin (t : Int)
deriving DecidableEq, Repr

structure Entry where
  value : Int
  expiresAt : Expiry
  accessCount : Nat
  createdAt : Int
deriving DecidableEq, Repr

/-- A JS value passed as `key`: a string, or any non-string value (all
non-strings behave identically in `_validateKey`, which only checks
`typeof key !== 'string'`). -/
inductive KeyArg where
  | str (s : String)
  | nonString
deriving DecidableEq, Repr

/-- A JS value passed as `ttl` (or stored as `defaultTTL`): `null`,
`Infinity`, a finite number (modelled as an integer), `NaN`, or any
non-number value. -/
inductive TTLArg where
  | null
  | inf
  | fin (n : Int)
  | nan
  | nonNumber
deriving DecidableEq, Repr

structure CacheConfig where
  defaultTTL : TTLArg
  maxSize : Nat
  enableLRU : Bool
  enableWeakOptimization : Bool
deriving DecidableEq, Repr

/-- The statistics counters of `this._stats` that the modelled operations
touch (latency timing fields are real-time measurements and are out of
scope). -/
structure Stats where
  hits : Nat
  misses : Nat
  sets : Nat
  evictions : Nat
  cleanups : Nat
  missesExpired : Nat
  missesCold : Nat
  evictionsTTL : Nat
  lastSetKey : String
deriving DecidableEq, Repr

structure CacheState where
  cfg : CacheConfig
  /-- `this._entries`; JS `Map` iteration order = insertion order. -/
  entries : List (String × Entry)
  /-- The key sequence held by `this._lruList` between its sentinels, most
  recently used first.  The intrusive doubly-linked list allocates one node
  per present key and the side map `this._lruNodes` stays in lockstep, so
  the pointer structure is represented by this sequence: `addToHead` conses
  the key, `removeNode`+`_lruNodes.delete` erases it, `removeTail` takes
  the final element. -/
  lruList : List String
  heap : List HeapItem
  /-- `this._usedKeys`. -/
  usedKeys : List String
  stats : Stats
deriving DecidableEq, Repr

/-! JS `Map` primitives over the association-list model. -/

def mapGet (m : List (String × β)) (k : String) : Option β :=
  (m.find? (fun p => p.1 == k)).map (·.2)

def mapSet (m : List (String × β)) (k : String) (v : β) : List (String × β) :=
  match m with
  | [] => [(k, v)]
  | (k0, v0) :: t => if k0 = k then (k, v) :: t else (k0, v0) :: mapSet t k v

def mapDelete (m : List (String × β)) (k : String) : List (String × β) :=
  m.filter (fun p => p.1 != k)

/-- `this._usedKeys.add(key)` (JS `Set.add`: no duplicate, keeps insertion
order). -/
def setAdd (s : List String) (k : String) : List String :=
  if k ∈ s then s else s ++ [k]

/-- `_validateKey` (Cache.js lines 631–637): the key must be a string with
`key.trim() !== ''`, otherwise an `Error` is thrown.  `trim` removes
leading and trailing whitespace, so its result is the empty string exactly
when every character of the key is whitespace — the check is modelled by
that (equivalent) predicate. -/
def validateKey (k : KeyArg) : Except Unit String :=
  match k with
  | .str s => if s.data.all Char.isWhitespace then .error () else .ok s
  | .nonString => .error ()

/-- `_validateTTL` (Cache.js lines 643–653): accepted values are `null`,
`Infinity`, and non-negative finite numbers; everything else (negative,
`NaN`, non-number) throws. -/
def validateTTL (t : TTLArg) : Except Unit Unit :=
  match t with
  | .null => .ok ()
  | .inf => .ok ()
  | .fin n => if n < 0 then .error () else .ok ()
  | .nan => .error ()
  | .nonNumber => .error ()

/-- JS truthiness of a `ttl` value, as used by `ttl || this._defaultTTL`
(Cache.js line 226): `null`, `0` and `NaN` are falsy. -/
def ttlTruthy : TTLArg → Bool
  | .null => false
  | .inf => true
  | .fin n => n ≠ 0
  | .nan => false
  | .nonNumber => true

/-- `const computedTTL = ttl || this._defaultTTL` (Cache.js line 226). -/
def computedTTL (ttl dflt : TTLArg) : TTLArg :=
  if ttlTruthy ttl then ttl else dflt

/-- `const expiresAt = computedTTL === Infinity ? Infinity : Date.now() +
computedTTL` (Cache.js lines 227–228).  When `computedTTL` is `null`
(both `ttl` and `defaultTTL` null/0), JS evaluates `Date.now() + null` as
`Date.now() + 0`.  `nan`/`nonNumber` cannot reach this point through the
API (validation rejects them); they are mapped like `0` for totality. -/
def computeExpiresAt (ttl dflt : TTLArg) (now : Int) : Expiry :=
  match computedTTL ttl dflt with
  | .inf => .never
  | .fin n => .fin (now + n)
  | .null => .fin now
  | .nan => .fin now
  | .nonNumber => .fin now

/-- `_removeFromLRU` (Cache.js lines 717–724): unlink the key's node (if a
node exists) and drop it from `_lruNodes`. -/
def removeFromLRU (l : List String) (k : String) : List String :=
  l.filter (fun x => x != k)

/-- `_addToLRU` (Cache.js lines 704–709): fresh node at the head. -/
def addToLRU (l : List String) (k : String) : List String :=
  k :: l

/-- `_moveToHeadLRU` (Cache.js lines 731–737): only acts if the key has a
node. -/
def moveToHeadLRU (l : List String) (k : String) : List String :=
  if k ∈ l then k :: removeFromLRU l k else l

/-- `_addToExpirationHeap` (Cache.js lines 746–751); infinite expiry is
never inserted. -/
def addToExpirationHeap (h : List HeapItem) (k : String) : Expiry → List HeapItem
  | .never => h
  | .fin t => heapPush h ⟨k, t⟩

/-- `_evictLRU` (Cache.js lines 683–695): with LRU enabled and a nonempty
entry table, remove the recency-list tail, delete its entry and node and
count one eviction. -/
def evictLRU (s : CacheState) : CacheState :=
  if ¬ s.cfg.enableLRU ∨ s.entries.length = 0 then s
  else
    match s.lruList.getLast? with
    | none => s
    | some k =>
      { s with
        entries := mapDelete s.entries k
        lruList := s.lruList.dropLast
        stats := { s.stats with evictions := s.stats.evictions + 1 } }

/-- `_checkItemExpiry` (Cache.js lines 662–675): `Infinity` never expires;
a finite entry strictly in the past is deleted (entry, LRU node) and
`evictionsTTL` is bumped.  Returns `(expired?, new state)`. -/
def checkItemExpiry (s : CacheState) (k : String) (e : Entry) (now : Int) :
    Bool × CacheState :=
  match e.expiresAt with
  | .never => (false, s)
  | .fin t =>
    if now > t then
      (true,
        { s with
          entries := mapDelete s.entries k
          lruList := removeFromLRU s.lruList k
          stats := { s.stats with evictionsTTL := s.stats.evictionsTTL + 1 } })
    else (false, s)

/-- The body of `set(key, value, ttl)` (Cache.js lines 226–283) after
validation has passed.  Latency timing and the WeakMap object-metadata
bookkeeping (which hold no observable cache state) are not modelled. -/
def setCore (s : CacheState) (key : String) (v : Int) (ttl : TTLArg) (now : Int) :
    CacheState :=
  let expiresAt := computeExpiresAt ttl s.cfg.defaultTTL now
  let s1 :=
    if (mapGet s.entries key).isSome then
      { s with lruList := removeFromLRU s.lruList key }
    else if s.entries.length ≥ s.cfg.maxSize then
      evictLRU s
    else s
  let item : Entry := { value := v, expiresAt, accessCount := 0, createdAt := now }
  let s2 :=
    { s1 with
      entries := mapSet s1.entries key item
      usedKeys := setAdd s1.usedKeys key
      stats := { s1.stats with lastSetKey := key }
      heap := addToExpirationHeap s1.heap key expiresAt }
  let s3 :=
    if s2.cfg.enableLRU then { s2 with lruList := addToLRU s2.lruList key } else s2
  { s3 with stats := { s3.stats with sets := s3.stats.sets + 1 } }

/-- `set(key, value, ttl)` (Cache.js lines 218–283): validation, then the
body. -/
def setOp (s : CacheState) (k : KeyArg) (v : Int) (ttl : TTLArg) (now : Int) :
    Except Unit CacheState :=
  match validateKey k with
  | .error e => .error e
  | .ok key =>
  match validateTTL ttl with
  | .error e => .error e
  | .ok _ => .ok (setCore s key v ttl now)

/-- `get(key)` (Cache.js lines 294–332), up to the returned value: the
clone pipeline is modelled separately, here the entry's stored payload is
returned. -/
def getOp (s : CacheState) (k : KeyArg) (now : Int) :
    Except Unit (Option Int × CacheState) :=
  match validateKey k with
  | .error e => .error e
  | .ok key =>
  let isColdMiss := key ∉ s.usedKeys
  let s := { s with usedKeys := setAdd s.usedKeys key }
  match mapGet s.entries key with
  | none =>
    let st := s.stats
    let st := { st with misses := st.misses + 1 }
    let st := if isColdMiss then { st with missesCold := st.missesCold + 1 } else st
    .ok (none, { s with stats := st })
  | some item =>
    let (expired, s) := checkItemExpiry s key item now
    if expired then
      .ok (none,
        { s with
          stats :=
            { s.stats with
              misses := s.stats.misses + 1
              missesExpired := s.stats.missesExpired + 1 } })
    else
      let s :=
        if s.cfg.enableLRU then { s with lruList := moveToHeadLRU s.lruList key }
        else s
      let s :=
        { s with
          entries := mapSet s.entries key { item with accessCount := item.accessCount + 1 }
          stats := { s.stats with hits := s.stats.hits + 1 } }
      .ok (some item.value, s)

/-- `has(key)` (Cache.js lines 340–349). -/
def hasOp (s : CacheState) (k : KeyArg) (now : Int) :
    Except Unit (Bool × CacheState) :=
  match validateKey k with
  | .error e => .error e
  | .ok key =>
  match mapGet s.entries key with
  | none => .ok (false, s)
  | some item =>
    let (expired, s) := checkItemExpiry s key item now
    .ok (!expired, s)

/-- `delete(key)` (Cache.js lines 357–376).  Note: the expiration heap is
not touched. -/
def deleteOp (s : CacheState) (k : KeyArg) :
    Except Unit (Bool × CacheState) :=
  match validateKey k with
  | .error e => .error e
  | .ok key =>
  if (mapGet s.entries key).isSome then
    .ok (true,
      { s with
        entries := mapDelete s.entries key
        lruList := removeFromLRU s.lruList key })
  else
    .ok (false, s)

/-- The remaining TTL reported by `getTTL`. -/
inductive TTLRemaining where
  | inf
  | ms (n : Int)
deriving DecidableEq, Repr

/-- `getTTL(key)` (Cache.js lines 471–482); does not mutate the cache. -/
def getTTLOp (s : CacheState) (k : KeyArg) (now : Int) :
    Except Unit (Option TTLRemaining) :=
  match validateKey k with
  | .error e => .error e
  | .ok key =>
  match mapGet s.entries key with
  | none => .ok none
  | some item =>
    match item.expiresAt with
    | .never => .ok (some .inf)
    | .fin t => .ok (some (.ms (max 0 (t - now))))

/-- `updateTTL(key, ttl)` (Cache.js lines 492–516).  On an absent or
already-expired key it returns `false` (the expiry check may lazily delete
the entry); otherwise the entry's `expiresAt` is recomputed and pushed to
the heap only when finite. -/
def updateTTLOp (s : CacheState) (k : KeyArg) (ttl : TTLArg) (now : Int) :
    Except Unit (Bool × CacheState) :=
  match validateKey k with
  | .error e => .error e
  | .ok key =>
  match validateTTL ttl with
  | .error e => .error e
  | .ok _ =>
  match mapGet s.entries key with
  | none => .ok (false, s)
  | some item =>
    let (expired, s) := checkItemExpiry s key item now
    if expired then .ok (false, s)
    else
      let newExpiresAt : Expiry :=
        match ttl with
        | .inf => .never
        | .fin n => .fin (now + n)
        | .null => .fin now
        | .nan => .fin now
        | .nonNumber => .fin now
      let s :=
        { s with entries := mapSet s.entries key { item with expiresAt := newExpiresAt } }
      let s := { s with heap := addToExpirationHeap s.heap key newExpiresAt }
      .ok (true, s)

/-- The `while` loop of `cleanup()` (Cache.js lines 404–416), with fuel:
each iteration pops the heap, so the heap length is sufficient fuel. -/
def cleanupLoop : Nat → CacheState → Int → Nat → CacheState × Nat
  | 0, s, _, cnt => (s, cnt)
  | fuel + 1, s, now, cnt =>
    match heapPeek s.heap with
    | none => (s, cnt)
    | some next =>
      if next.expiresAt > now then (s, cnt)
      else
        let s := { s with heap := (heapPop s.heap).2 }
        if (mapGet s.entries next.key).isSome then
          cleanupLoop fuel
            { s with
              entries := mapDelete s.entries next.key
              lruList := removeFromLRU s.lruList next.key }
            now (cnt + 1)
        else cleanupLoop fuel s now cnt

/-- `cleanup()` (Cache.js lines 383–420): active reclamation; returns the
new state and the removed count. -/
def cleanupOp (s : CacheState) (now : Int) : CacheState × Nat :=
  let (s, cnt) := cleanupLoop s.heap.length s now 0
  ({ s with stats := { s.stats with cleanups := s.stats.cleanups + 1 } }, cnt)

/-- `keys()` (Cache.js lines 451–463): non-expired keys in entry-table
iteration order (the filter is `now <= item.expiresAt`). -/
def keysOp (s : CacheState) (now : Int) : List String :=
  (s.entries.filter (fun p =>
    match p.2.expiresAt with
    | .never => true
    | .fin t => now ≤ t)).map (·.1)

/-- Fresh cache state produced by the constructor (lines 148–204); the
constructor itself validates `defaultTTL`. -/
def initialState (cfg : CacheConfig) : CacheState :=
  { cfg
    entries := []
    lruList := []
    heap := []
    usedKeys := []
    stats :=
      { hits := 0, misses := 0, sets := 0, evictions := 0, cleanups := 0
        missesExpired := 0, missesCold := 0, evictionsTTL := 0, lastSetKey := "" } }

/-! ### Operation sequences

For state invariants quantified over arbitrary call sequences.  A thrown
validation error leaves the state unchanged (propagating to the caller), so
the runner keeps the previous state on `.error`. -/

inductive CacheOp where
  | set (k : KeyArg) (v : Int) (ttl : TTLArg) (now : Int)
  | get (k : KeyArg) (now : Int)
  | has (k : KeyArg) (now : Int)
  | del (k : KeyArg)
  | updateTTL (k : KeyArg) (ttl : TTLArg) (now : Int)
  | cleanup (now : Int)

def applyOp (s : CacheState) : CacheOp → CacheState
  | .set k v ttl now => ((setOp s k v ttl now).toOption).getD s
  | .get k now => (((getOp s k now).toOption).map (·.2)).getD s
  | .has k now => (((hasOp s k now).toOption).map (·.2)).getD s
  | .del k => (((deleteOp s k).toOption).map (·.2)).getD s
  | .updateTTL k ttl now => (((updateTTLOp s k ttl now).toOption).map (·.2)).getD s
  | .cleanup now => (cleanupOp s now).1

def applyOps (s : CacheState) (ops : List CacheOp) : CacheState :=
  ops.foldl applyOp s

/-! ### Debounce (src/src/utils/debounce.js) -/

structure Debouncer where
  wait : Int
  lastCall : Int
deriving DecidableEq, Repr

/-- `Debounce.canCall()`: allowed iff `now - lastCall >= wait`, updating
`lastCall` when allowed. -/
def canCall (d : Debouncer) (now : Int) : Bool × Debouncer :=
  if now - d.lastCall ≥ d.wait then (true, { d with lastCall := now }) else (false, d)

/-! ### ScheduledTask (src/src/taskQueue/ScheduledTask.js)

The task function `fn`, its `context` and the `onError` callback are
arbitrary JS closures; the scheduling claims under verification only
concern the dispatch decisions, so they are not part of the task record. -/

structure STask where
  id : String
  interval : Int
  nextExecution : Int
  lastExecution : Option Int
  executionCount : Nat
  isActive : Bool
  isPaused : Bool
  pausedAt : Option Int
  priority : Int
  /-- `maxExecutions`; `none` models the default `Infinity`. -/
  maxExecutions : Option Nat
  errorCount : Nat
  debouncer : Option Debouncer
deriving DecidableEq, Repr

/-- `ScheduledTask.shouldExecute()` (ScheduledTask.js lines 356–368):
checks `isActive`, timing, and the debouncer (whose `lastCall` is updated
by `canCall` when it permits the run).  `isPaused` is not consulted. -/
def shouldExecute (t : STask) (now : Int) : Bool × STask :=
  if ¬ t.isActive ∨ now < t.nextExecution then (false, t)
  else
    match t.debouncer with
    | none => (true, t)
    | some d =>
      let (ok, d2) := canCall d now
      (ok, { t with debouncer := some d2 })

/-- `ScheduledTask.toHeapItem()`. -/
def toHeapItem (t : STask) : HeapItem :=
  ⟨t.id, t.nextExecution⟩

/-! ### TaskQueue (src/src/taskQueue/TaskQueue.js) -/

structure QueueState where
  tasks : List (String × STask)
  heap : List HeapItem
  isRunning : Bool
  minTickInterval : Int
  maxTickInterval : Int
  maxConcurrent : Int
  /-- `this.currentlyExecuting` (a `Set` of task ids). -/
  currentlyExecuting : List String
  totalSkippedByDebounce : Nat
deriving DecidableEq, Repr

/-- `calculateNextTickDelay()` (TaskQueue.js lines 280–298).  Note the
upper bound is the literal `5000`; the configured `maxTickInterval` field
is not consulted. -/
def calculateNextTickDelay (q : QueueState) (now : Int) : Int :=
  if q.heap.length = 0 then q.minTickInterval
  else
    match heapPeek q.heap with
    | none => q.minTickInterval
    | some nextItem =>
      let timeUntilNext := max 0 (nextItem.expiresAt - now)
      max q.minTickInterval (min timeUntilNext 5000)

/-- `pauseTask(id)` (TaskQueue.js lines 326–333). -/
def pauseTask (q : QueueState) (id : String) (now : Int) : QueueState :=
  match mapGet q.tasks id with
  | some t =>
    if ¬ t.isPaused then
      { q with tasks := mapSet q.tasks id { t with isPaused := true, pausedAt := some now } }
    else q
  | none => q

/-- `resumeTask(id)` (TaskQueue.js lines 339–345). -/
def resumeTask (q : QueueState) (id : String) : QueueState :=
  match mapGet q.tasks id with
  | some t =>
    if t.isPaused then { q with tasks := mapSet q.tasks id { t with isPaused := false } }
    else q
  | none => q

/-- `stop()`; the cancelled timer handle is real-time machinery outside the
model. -/
def stopQueue (q : QueueState) : QueueState :=
  { q with isRunning := false }

/-- `removeTask(id)` (TaskQueue.js lines 197–213). -/
def removeTask (q : QueueState) (id : String) : Bool × QueueState :=
  if (mapGet q.tasks id).isSome then
    let q := { q with tasks := mapDelete q.tasks id, heap := (heapRemove q.heap id).2 }
    let q := if q.tasks.length = 0 then stopQueue q else q
    (true, q)
  else (false, q)

/-- `addTask(id, fn, interval, options)` (TaskQueue.js lines 158–189) with
the fresh `ScheduledTask` of ScheduledTask.js lines 300–349. -/
def addTask (q : QueueState) (id : String) (interval : Int) (priority : Int)
    (maxExecutions : Option Nat) (debounce : Option Int) (now : Int) : QueueState :=
  let q :=
    if (mapGet q.tasks id).isSome then { q with heap := (heapRemove q.heap id).2 }
    else q
  let task : STask :=
    { id
      interval
      nextExecution := now + interval
      lastExecution := none
      executionCount := 0
      isActive := true
      isPaused := false
      pausedAt := none
      priority
      maxExecutions
      errorCount := 0
      debouncer := debounce.map (fun w => { wait := w, lastCall := 0 }) }
  let q := { q with tasks := mapSet q.tasks id task, heap := heapPush q.heap (toHeapItem task) }
  { q with isRunning := true }

/-- The partition loop of `_processTasks` (TaskQueue.js lines 696–720):
walks the extracted items in order, discards orphaned/inactive ones,
separates ready tasks from tasks to reinsert, counts debounce skips, and
threads the `shouldExecute` debouncer updates back into the task table.
Returns (tasksToReinsert, readyTasks, skipped, updated tasks). -/
def tickPartition (now : Int) :
    List HeapItem → List (String × STask) →
    List STask × List STask × Nat × List (String × STask)
  | [], m => ([], [], 0, m)
  | item :: rest, m =>
    match mapGet m item.key with
    | none => tickPartition now rest m
    | some task =>
      if ¬ task.isActive then tickPartition now rest m
      else if item.expiresAt ≤ now then
        let (ok, task2) := shouldExecute task now
        let m2 := mapSet m task2.id task2
        let (reins, ready, skipped, m3) := tickPartition now rest m2
        if ok then (reins, task2 :: ready, skipped, m3)
        else (task2 :: reins, ready, skipped + 1, m3)
      else
        let (reins, ready, skipped, m2) := tickPartition now rest m
        (task :: reins, ready, skipped, m2)

/-- JS `array.slice(0, end)` with a possibly negative `end`
(`readyTasks.slice(0, availableSlots)` at TaskQueue.js line 737): a
negative end is an offset from the end of the array. -/
def jsSliceTake (l : List α) (e : Int) : List α :=
  if e < 0 then l.take ((l.length + e).toNat) else l.take e.toNat

/-- `_cleanupInactiveTasks` (TaskQueue.js lines 775–785): `removeTask` on
every inactive task. -/
def cleanupInactiveTasks (q : QueueState) : QueueState :=
  let inactive := (q.tasks.filter (fun p => ¬ p.2.isActive)).map (·.1)
  inactive.foldl (fun q id => (removeTask q id).2) q

/-- One tick of `_processTasks` (TaskQueue.js lines 685–746), as far as
the synchronous dispatch decision: returns the list of tasks dispatched as
new executions this tick (those sliced into `tasksToExecute` whose
`_executeTask` call passes the not-already-executing guard) and the state
after reinsertion, dispatch bookkeeping and inactive-task cleanup.  The
asynchronous task bodies themselves run after the tick. -/
def processTick (q : QueueState) (now : Int) : List STask × QueueState :=
  if q.tasks.length = 0 then ([], stopQueue q)
  else
    let allItems := extractAll q.heap
    let (reins, ready, skipped, tasks2) := tickPartition now allItems q.tasks
    let toReinsert := reins ++ ready
    let heap2 := toReinsert.foldl
      (fun h t => if t.isActive then heapPush h (toHeapItem t) else h) []
    let readySorted := stableSort (fun a b => b.priority < a.priority) ready
    let availableSlots : Int := q.maxConcurrent - q.currentlyExecuting.length
    let tasksToExecute := jsSliceTake readySorted availableSlots
    let dispatched := tasksToExecute.filter (fun t => ¬ q.currentlyExecuting.contains t.id)
    let q2 :=
      { q with
        tasks := tasks2
        heap := heap2
        totalSkippedByDebounce := q.totalSkippedByDebounce + skipped
        currentlyExecuting := q.currentlyExecuting ++ dispatched.map (·.id) }
    (dispatched, cleanupInactiveTasks q2)

/-! ### Clone pipeline (Cache.js lines 294–332, 817–849)

Object values need identity semantics, so this sub-model carries an
explicit object store: addresses map to payloads, `structuredClone`
allocates a fresh address with a copy of the payload, and the WeakMap
`this._cloneCache` maps an original's address to its cached clone's
address.  A caller "mutating the object returned by get" writes through
the returned address. -/

inductive JVal where
  | prim (n : Int)
  | ref (a : Nat)
deriving DecidableEq, Repr

structure CloneCtx where
  /-- The object store: address → payload. -/
  mem : List (Nat × Int)
  /-- Next fresh address. -/
  fresh : Nat
  /-- `this._cloneCache` (original address → clone address). -/
  cloneCache : List (Nat × Nat)
deriving DecidableEq, Repr

def memGet (m : List (Nat × Int)) (a : Nat) : Int :=
  ((m.find? (fun p => p.1 == a)).map (·.2)).getD 0

def memSet (m : List (Nat × Int)) (a : Nat) (v : Int) : List (Nat × Int) :=
  match m with
  | [] => [(a, v)]
  | (a0, v0) :: t => if a0 = a then (a, v) :: t else (a0, v0) :: memSet t a v

def ccGet (m : List (Nat × Nat)) (a : Nat) : Option Nat :=
  ((m.find? (fun p => p.1 == a)).map (·.2))

def ccSet (m : List (Nat × Nat)) (a : Nat) (v : Nat) : List (Nat × Nat) :=
  match m with
  | [] => [(a, v)]
  | (a0, v0) :: t => if a0 = a then (a, v) :: t else (a0, v0) :: ccSet t a v

/-- `_deepClone` = `structuredClone(obj)`: primitives are returned as is,
objects are copied to a fresh address. -/
def deepClone (c : CloneCtx) (v : JVal) : JVal × CloneCtx :=
  match v with
  | .prim n => (.prim n, c)
  | .ref a =>
    (.ref c.fresh,
      { c with mem := memSet c.mem c.fresh (memGet c.mem a), fresh := c.fresh + 1 })

/-- `_optimizedClone` (Cache.js lines 830–849): primitives as is; for a
reference, return the cached clone if one exists, else deep-clone and
cache it. -/
def optimizedClone (c : CloneCtx) (v : JVal) : JVal × CloneCtx :=
  match v with
  | .prim n => (.prim n, c)
  | .ref a =>
    match ccGet c.cloneCache a with
    | some cached => (.ref cached, c)
    | none =>
      let (cloned, c2) := deepClone c v
      match cloned with
      | .ref ca => (.ref ca, { c2 with cloneCache := ccSet c2.cloneCache a ca })
      | .prim n => (.prim n, c2)

/-- The value-returning tail of `get` (Cache.js lines 329–331):
`enableWeakOptimization ? _optimizedClone(item.value) : _deepClone(item.value)`. -/
def getReturnedValue (weakOpt : Bool) (c : CloneCtx) (stored : JVal) : JVal × CloneCtx :=
  if weakOpt then optimizedClone c stored else deepClone c stored

/-- The caller mutates the object it received: write payload `v` through
the returned reference (no-op on primitives, which JS passes by value). -/
def mutateReturned (c : CloneCtx) (v : JVal) (payload : Int) : CloneCtx :=
  match v with
  | .prim _ => c
  | .ref a => { c with mem := memSet c.mem a payload }

/-- The value a caller observes from a returned `JVal`. -/
def observe (c : CloneCtx) (v : JVal) : Int :=
  match v with
  | .prim n => n
  | .ref a => memGet c.mem a

/-- Well-formedness of the clone context: every allocated address is below
`fresh` (true of every reachable store). -/
def CloneCtxWF (c : CloneCtx) : Prop :=
  ∀ p ∈ c.mem, p.1 < c.fresh

/-- The read–mutate–read experiment of the clone-isolation property: `get`
the stored value, mutate the object the caller received, `get` again, and
observe the value the second read yields. -/
def mutationProbe (weakOpt : Bool) (c : CloneCtx) (v : JVal) (mutv : Int) : Int :=
  let r1 := getReturnedValue weakOpt c v
  let c2 := mutateReturned r1.2 r1.1 mutv
  let r2 := getReturnedValue weakOpt c2 v
  observe r2.2 r2.1

/-! ### Further derived definitions used by the verification -/

/-- Fresh `TaskQueue` state from the constructor (TaskQueue.js lines
36–140). -/
def initialQueue (minTick maxTick maxConc : Int) : QueueState :=
  { tasks := []
    heap := []
    isRunning := false
    minTickInterval := minTick
    maxTickInterval := maxTick
    maxConcurrent := maxConc
    currentlyExecuting := []
    totalSkippedByDebounce := 0 }

/-- The synchronous prefix of `executeNow(id)` → `_executeTask(task)`
(TaskQueue.js lines 616–638, 755–757): without consulting
`maxConcurrent`, the task's id is added to `currentlyExecuting` (unless it
is already executing); the awaited body runs after. -/
def executeNowStart (q : QueueState) (id : String) : QueueState :=
  if (mapGet q.tasks id).isSome ∧ ¬ q.currentlyExecuting.contains id then
    { q with currentlyExecuting := q.currentlyExecuting ++ [id] }
  else q

/-- `clamp(x, lo, hi)` as used by the spec's tick-delay formula. -/
def clamp (x lo hi : Int) : Int :=
  max lo (min x hi)

/-- Modelled from the spec: the adaptive tick delay the specification
claims — `clamp(timeUntilNextHeapItem, minTickInterval, maxTickInterval)`
with the configured ceiling, the minimum interval on an empty heap.  Kept
beside `calculateNextTickDelay` (translated from the source) for
comparison. -/
def specClaimedTickDelay (q : QueueState) (now : Int) : Int :=
  if q.heap.length = 0 then q.minTickInterval
  else
    match heapPeek q.heap with
    | none => q.minTickInterval
    | some nextItem =>
      clamp (max 0 (nextItem.expiresAt - now)) q.minTickInterval q.maxTickInterval

/-- Fold a sequence of `set` calls (one per key) over a cache state. -/
def insertKeys (s : CacheState) (ks : List String) (v : Int) (ttl : TTLArg)
    (now : Int) : CacheState :=
  ks.foldl (fun s k => applyOp s (.set (.str k) v ttl now)) s

/-- Heap–table agreement, in the direction the code maintains: heap keys
are pairwise distinct, and every live entry with a finite `expiresAt` has
its (unique) occurrence in the expiration heap, with the heap priority
equal to the entry's `expiresAt`. -/
def HeapSync (s : CacheState) : Prop :=
  NodupKeys s.heap ∧
    ∀ k e, mapGet s.entries k = some e →
      ∀ t, e.expiresAt = .fin t → (⟨k, t⟩ : HeapItem) ∈ s.heap

/-- Whether a key occurs in a heap. -/
def heapHasKey (h : List HeapItem) (k : String) : Bool :=
  h.any (fun it => it.key == k)

/-- The scheduler operations of the heap-table agreement claim: task add
and task remove (TaskQueue.js `addTask`/`removeTask`), together with
pause/resume, which edit a task record in place. -/
inductive QOp where
  | add (id : String) (interval : Int) (priority : Int)
      (maxExecutions : Option Nat) (debounce : Option Int) (now : Int)
  | remove (id : String)
  | pause (id : String) (now : Int)
  | resume (id : String)
deriving DecidableEq, Repr

/-- Run one scheduler operation. -/
def applyQOp (q : QueueState) : QOp → QueueState
  | .add id interval priority maxE deb now =>
    addTask q id interval priority maxE deb now
  | .remove id => (removeTask q id).2
  | .pause id now => pauseTask q id now
  | .resume id => resumeTask q id

/-- Run a sequence of scheduler operations. -/
def applyQOps (q : QueueState) (ops : List QOp) : QueueState :=
  ops.foldl applyQOp q

/-- Scheduler-side heap-table agreement: the execution heap's keys are
pairwise distinct and every key present in the execution heap refers to a
live task in the task table. -/
def QueueSync (q : QueueState) : Prop :=
  NodupKeys q.heap ∧ ∀ it ∈ q.heap, (mapGet q.tasks it.key).isSome = true

/-! ## Lemmas -/

/-! ### List permutation helpers -/

theorem perm_set_cons_eraseIdx {α : Type} :
    ∀ (l : List α) (i : Nat) (b : α), i < l.length →
      (l.set i b).Perm (b :: l.eraseIdx i)
  | [], i, _, hi => absurd hi (by simp)
  | _ :: t, 0, b, _ => by simp
  | c :: t, i + 1, b, hi => by
    have ih := perm_set_cons_eraseIdx t i b (by simpa using hi)
    simpa using ((ih.cons c).trans (List.Perm.swap b c _))

theorem perm_cons_eraseIdx {α : Type} :
    ∀ (l : List α) (i : Nat) (a : α), l.get? i = some a →
      l.Perm (a :: l.eraseIdx i)
  | [], i, _, hi => by simp at hi
  | c :: t, 0, a, hi => by
    simp at hi
    subst hi
    simp
  | c :: t, i + 1, a, hi => by
    have ih := perm_cons_eraseIdx t i a (by simpa using hi)
    simpa using ((ih.cons c).trans (List.Perm.swap a c _))

theorem swap_set_perm {α : Type} :
    ∀ (l : List α) (i j : Nat) (a b : α), l.get? i = some a → l.get? j = some b →
      ((l.set i b).set j a).Perm l
  | [], i, _, _, _, hi, _ => by simp at hi
  | c :: t, 0, 0, a, b, hi, hj => by
    simp at hi hj
    subst hi
    subst hj
    simp
  | c :: t, 0, m + 1, a, b, hi, hj => by
    have ha : a = c := by simpa using hi.symm
    subst ha
    have hj2 : t.get? m = some b := by simpa using hj
    have hmlt : m < t.length := by
      rw [List.get?_eq_getElem?] at hj2
      exact (List.getElem?_eq_some.mp hj2).1
    have hset : (t.set m a).Perm (a :: t.eraseIdx m) := perm_set_cons_eraseIdx t m a hmlt
    have herase : t.Perm (b :: t.eraseIdx m) := perm_cons_eraseIdx t m b hj2
    have hstep : (((a :: t).set 0 b).set (m + 1) a) = b :: t.set m a := by simp
    rw [hstep]
    refine ((hset.cons b).trans (List.Perm.swap a b _)).trans ?_
    exact (herase.cons a).symm
  | c :: t, m + 1, 0, a, b, hi, hj => by
    have hb : b = c := by simpa using hj.symm
    subst hb
    have hi2 : t.get? m = some a := by simpa using hi
    have hmlt : m < t.length := by
      rw [List.get?_eq_getElem?] at hi2
      exact (List.getElem?_eq_some.mp hi2).1
    have hset : (t.set m b).Perm (b :: t.eraseIdx m) := perm_set_cons_eraseIdx t m b hmlt
    have herase : t.Perm (a :: t.eraseIdx m) := perm_cons_eraseIdx t m a hi2
    have hstep : (((b :: t).set (m + 1) b).set 0 a) = a :: t.set m b := by simp
    rw [hstep]
    refine ((hset.cons a).trans (List.Perm.swap b a _)).trans ?_
    exact (herase.cons b).symm
  | c :: t, m + 1, n + 1, a, b, hi, hj => by
    have ih := swap_set_perm t m n a b (by simpa using hi) (by simpa using hj)
    simpa using ih.cons c

theorem swapIdx_perm (h : List HeapItem) (i j : Nat) : (swapIdx h i j).Perm h := by
  unfold swapIdx
  rcases hi : h.get? i with _ | a
  · exact List.Perm.refl h
  · rcases hj : h.get? j with _ | b
    · exact List.Perm.refl h
    · exact swap_set_perm h i j a b hi hj

theorem bubbleUpF_perm (fuel : Nat) :
    ∀ (h : List HeapItem) (i : Nat), (bubbleUpF fuel h i).Perm h := by
  induction fuel with
  | zero =>
    intro h i
    have hz : bubbleUpF 0 h i = h := by simp [bubbleUpF]
    rw [hz]
  | succ n ih =>
    intro h i
    cases i with
    | zero =>
      have hz : bubbleUpF (n + 1) h 0 = h := by simp [bubbleUpF]
      rw [hz]
    | succ m =>
      simp only [bubbleUpF]
      repeat' split
      all_goals first
        | exact List.Perm.refl h
        | exact (ih _ _).trans (swapIdx_perm h _ _)

theorem bubbleUp_perm (h : List HeapItem) (i : Nat) : (bubbleUp h i).Perm h :=
  bubbleUpF_perm _ h i

theorem bubbleDownF_perm (fuel : Nat) :
    ∀ (h : List HeapItem) (i : Nat), (bubbleDownF fuel h i).Perm h := by
  induction fuel with
  | zero =>
    intro h i
    have hz : bubbleDownF 0 h i = h := by simp [bubbleDownF]
    rw [hz]
  | succ n ih =>
    intro h i
    simp only [bubbleDownF]
    repeat' split
    all_goals first
      | exact List.Perm.refl h
      | exact (ih _ _).trans (swapIdx_perm h _ _)

theorem bubbleDown_perm (h : List HeapItem) (i : Nat) : (bubbleDown h i).Perm h :=
  bubbleDownF_perm _ h i

/-! ### keyIdx facts -/

theorem keyIdx_eq_none {k : String} :
    ∀ {h : List HeapItem}, keyIdx k h = none ↔ ∀ it ∈ h, it.key ≠ k
  | [] => by simp [keyIdx]
  | it :: t => by
    by_cases hk : it.key = k
    · simp [keyIdx, hk]
    · simp [keyIdx, hk, Option.map_eq_none, keyIdx_eq_none (h := t)]

theorem keyIdx_eq_some {k : String} :
    ∀ {h : List HeapItem} {i : Nat}, keyIdx k h = some i →
      ∃ it, h.get? i = some it ∧ it.key = k
  | [], i, hi => by simp [keyIdx] at hi
  | it :: t, i, hi => by
    by_cases hk : it.key = k
    · simp [keyIdx, hk] at hi
      subst hi
      exact ⟨it, by simp, hk⟩
    · simp [keyIdx, hk] at hi
      obtain ⟨j, hj, rfl⟩ := hi
      obtain ⟨it2, h1, h2⟩ := keyIdx_eq_some hj
      exact ⟨it2, by simpa using h1, h2⟩

theorem keyIdx_lt_length {k : String} {h : List HeapItem} {i : Nat}
    (hi : keyIdx k h = some i) : i < h.length := by
  obtain ⟨it, h1, _⟩ := keyIdx_eq_some hi
  rw [List.get?_eq_getElem?] at h1
  exact (List.getElem?_eq_some.mp h1).1

/-! ### Heap operation characterization up to permutation -/

theorem nodupKeys_cons {it : HeapItem} {t : List HeapItem} :
    NodupKeys (it :: t) ↔ (∀ x ∈ t, x.key ≠ it.key) ∧ NodupKeys t := by
  unfold NodupKeys heapKeys
  rw [List.map_cons, List.nodup_cons]
  constructor
  · rintro ⟨h1, h2⟩
    refine ⟨?_, h2⟩
    intro x hx hxk
    exact h1 (hxk ▸ List.mem_map_of_mem HeapItem.key hx)
  · rintro ⟨h1, h2⟩
    refine ⟨?_, h2⟩
    intro hmem
    obtain ⟨x, hx, hxk⟩ := List.mem_map.mp hmem
    exact h1 x hx hxk

/-- With pairwise-distinct keys, removing the unique item holding key `k`
by index is the same list as filtering that key out. -/
theorem filter_keyne_eq_eraseIdx {k : String} :
    ∀ {h : List HeapItem} {i : Nat}, NodupKeys h → keyIdx k h = some i →
      h.filter (fun it => it.key != k) = h.eraseIdx i
  | [], i, _, hi => by simp [keyIdx] at hi
  | it :: t, i, hnd, hi => by
    by_cases hk : it.key = k
    · simp only [keyIdx, if_pos hk, Option.some_inj] at hi
      subst hi
      have hnotin : ∀ x ∈ t, x.key ≠ k := by
        intro x hx hxk
        exact (nodupKeys_cons.mp hnd).1 x hx (by rw [hxk, hk])
      have hself : t.filter (fun x => x.key != k) = t :=
        List.filter_eq_self.mpr (fun a ha => by simpa using hnotin a ha)
      simp [hk, hself]
    · simp only [keyIdx, if_neg hk] at hi
      rcases hmap : keyIdx k t with _ | j
      · rw [hmap] at hi
        simp at hi
      · rw [hmap] at hi
        have hij : i = j + 1 := by simpa using hi.symm
        subst hij
        have hrec := filter_keyne_eq_eraseIdx (nodupKeys_cons.mp hnd).2 hmap
        have hbne : (it.key != k) = true := by simpa using hk
        simp [List.filter_cons, hbne, hrec]

theorem dropLast_eq_eraseIdx_last {α : Type} :
    ∀ (l : List α), l.dropLast = l.eraseIdx (l.length - 1)
  | [] => rfl
  | [_] => rfl
  | a :: b :: t => by
    have := dropLast_eq_eraseIdx_last (b :: t)
    simp only [List.dropLast_cons₂, List.length_cons, Nat.add_sub_cancel] at *
    simpa using this

theorem heapRemove_perm {h : List HeapItem} {k : String} (hnd : NodupKeys h) :
    ((heapRemove h k).2).Perm (h.filter (fun it => it.key != k)) := by
  rcases hidx : keyIdx k h with _ | i
  · have hself : h.filter (fun it => it.key != k) = h :=
      List.filter_eq_self.mpr (fun a ha => by simpa using keyIdx_eq_none.mp hidx a ha)
    simp only [heapRemove, hidx, hself]
    exact List.Perm.refl h
  · have hfe := filter_keyne_eq_eraseIdx hnd hidx
    have hlt := keyIdx_lt_length hidx
    rw [hfe]
    simp only [heapRemove, hidx]
    by_cases hlast : i = h.length - 1
    · rw [if_pos hlast, hlast, ← dropLast_eq_eraseIdx_last h]
    · rw [if_neg hlast]
      have hone : ¬ h.length = 1 := by omega
      rw [if_neg hone]
      have hne : h ≠ [] := by
        intro hn
        subst hn
        simp at hlt
      rcases hgl : h.getLast? with _ | last
      · exfalso
        rw [← List.getLast?_isSome] at hne
        simp [hgl] at hne
      · dsimp only
        have hilt : i < h.dropLast.length := by
          simp only [List.length_dropLast]
          omega
        have hperm1 : ((h.dropLast).set i last).Perm (last :: (h.dropLast).eraseIdx i) :=
          perm_set_cons_eraseIdx _ i last hilt
        have hsplit : h.dropLast ++ [last] = h := by
          have hconc := List.dropLast_concat_getLast hne
          rw [List.getLast?_eq_getLast h hne, Option.some_inj] at hgl
          rw [hgl] at hconc
          exact hconc
        have hperm2 : (h.eraseIdx i).Perm (last :: (h.dropLast).eraseIdx i) := by


          have he1 : h.eraseIdx i = (h.dropLast).eraseIdx i ++ [last] := by
            conv_lhs => rw [← hsplit]
            exact List.eraseIdx_append_of_lt_length hilt _
          rw [he1]
          exact List.perm_append_singleton _ _
        refine List.Perm.trans ?_ hperm2.symm
        split
        · exact (bubbleUp_perm _ _).trans hperm1
        · exact (bubbleDown_perm _ _).trans hperm1

theorem heapPush_perm {h : List HeapItem} (it : HeapItem) (hnd : NodupKeys h) :
    (heapPush h it).Perm (it :: h.filter (fun x => x.key != it.key)) := by
  unfold heapPush
  refine (bubbleUp_perm _ _).trans ?_
  by_cases hmem : (keyIdx it.key h).isSome
  · rw [if_pos hmem]
    refine (List.perm_append_singleton _ _).trans ?_
    exact (heapRemove_perm hnd).cons it
  · rw [if_neg hmem]
    refine (List.perm_append_singleton _ _).trans ?_
    rcases hidx : keyIdx it.key h with _ | i
    · have hself : h.filter (fun x => x.key != it.key) = h :=
        List.filter_eq_self.mpr
          (fun a ha => by simpa using keyIdx_eq_none.mp hidx a ha)
      rw [hself]
    · exact absurd (by simp [hidx]) hmem

theorem nodupKeys_of_perm {h1 h2 : List HeapItem} (hp : h1.Perm h2) :
    NodupKeys h2 → NodupKeys h1 := by
  unfold NodupKeys heapKeys
  intro hnd
  exact ((hp.map HeapItem.key).nodup_iff).mpr hnd

theorem nodupKeys_filter (h : List HeapItem) (p : HeapItem → Bool)
    (hnd : NodupKeys h) : NodupKeys (h.filter p) := by
  unfold NodupKeys heapKeys at *
  exact ((List.filter_sublist h).map HeapItem.key).nodup hnd

theorem nodupKeys_heapPush {h : List HeapItem} (it : HeapItem) (hnd : NodupKeys h) :
    NodupKeys (heapPush h it) := by
  refine nodupKeys_of_perm (heapPush_perm it hnd) ?_
  rw [nodupKeys_cons]
  refine ⟨?_, nodupKeys_filter h _ hnd⟩
  intro x hx
  have := (List.mem_filter.mp hx).2
  simpa using this

theorem nodupKeys_heapRemove {h : List HeapItem} (k : String) (hnd : NodupKeys h) :
    NodupKeys (heapRemove h k).2 :=
  nodupKeys_of_perm (heapRemove_perm hnd) (nodupKeys_filter h _ hnd)

theorem heapPop_fst (h : List HeapItem) : (heapPop h).1 = h.head? := by
  match h with
  | [] => rfl
  | [a] => rfl
  | a :: b :: t =>
    simp only [heapPop]
    rcases hgl : (a :: b :: t).getLast? with _ | last
    · exfalso
      have hs : (a :: b :: t).getLast?.isSome = true := List.getLast?_isSome.mpr (by simp)
      rw [hgl] at hs
      simp at hs
    · simp

theorem heapPop_perm : ∀ {h : List HeapItem}, h ≠ [] → ((heapPop h).2).Perm h.tail
  | [], hne => absurd rfl hne
  | [a], _ => by simp [heapPop]
  | a :: b :: t, _ => by
    simp only [heapPop]
    rcases hgl : (a :: b :: t).getLast? with _ | last
    · exfalso
      have hs : (a :: b :: t).getLast?.isSome = true := List.getLast?_isSome.mpr (by simp)
      rw [hgl] at hs
      simp at hs
    · dsimp only
      have hne2 : b :: t ≠ [] := by simp
      have hlast2 : (b :: t).getLast hne2 = last := by
        rw [List.getLast?_cons_cons, List.getLast?_eq_getLast _ hne2, Option.some_inj] at hgl
        exact hgl
      have hdrop : (a :: b :: t).dropLast = a :: (b :: t).dropLast := by
        simp [List.dropLast_cons₂]
      have hset : ((a :: b :: t).dropLast).set 0 last = last :: (b :: t).dropLast := by
        rw [hdrop]
        rfl
      refine (bubbleDown_perm _ _).trans ?_
      rw [hset]
      refine List.Perm.trans ?_ (List.Perm.refl (b :: t))
      have hsplit : (b :: t).dropLast ++ [last] = b :: t := by
        rw [← hlast2]
        exact List.dropLast_concat_getLast hne2
      calc (last :: (b :: t).dropLast).Perm ((b :: t).dropLast ++ [last]) :=
            (List.perm_append_singleton _ _).symm
        _ = b :: t := hsplit

theorem nodupKeys_tail : ∀ {h : List HeapItem}, NodupKeys h → NodupKeys h.tail
  | [], h => h
  | _ :: _, hnd => (nodupKeys_cons.mp hnd).2

theorem nodupKeys_heapPop {h : List HeapItem} (hnd : NodupKeys h) :
    NodupKeys (heapPop h).2 := by
  rcases h with _ | ⟨a, t⟩
  · exact hnd
  · exact nodupKeys_of_perm (heapPop_perm (by simp)) (nodupKeys_tail hnd)

/-! ### Membership corollaries -/

theorem mem_filter_keyne {h : List HeapItem} {x : HeapItem} {k : String} :
    x ∈ h.filter (fun y => y.key != k) ↔ x ∈ h ∧ x.key ≠ k := by
  rw [List.mem_filter]
  simp

theorem mem_heapPush {h : List HeapItem} {x it : HeapItem} (hnd : NodupKeys h) :
    x ∈ heapPush h it ↔ x = it ∨ (x ∈ h ∧ x.key ≠ it.key) := by
  rw [(heapPush_perm it hnd).mem_iff, List.mem_cons, mem_filter_keyne]

theorem mem_heapRemove {h : List HeapItem} {x : HeapItem} {k : String}
    (hnd : NodupKeys h) : x ∈ (heapRemove h k).2 ↔ x ∈ h ∧ x.key ≠ k := by
  rw [(heapRemove_perm hnd).mem_iff, mem_filter_keyne]

theorem mem_heapPop {h : List HeapItem} {x root : HeapItem}
    (hroot : h.head? = some root) (hkey : x.key ≠ root.key) :
    x ∈ (heapPop h).2 ↔ x ∈ h := by
  rcases h with _ | ⟨a, t⟩
  · simp at hroot
  · have ha : a = root := by simpa using hroot
    subst ha
    rw [(heapPop_perm (by simp)).mem_iff]
    simp only [List.tail_cons, List.mem_cons]
    constructor
    · intro hx
      exact Or.inr hx
    · rintro (rfl | hx)
      · exact absurd rfl hkey
      · exact hx

/-! ### JS Map model lemmas -/

theorem mapGet_cons {β : Type} (k0 : String) (v0 : β) (t : List (String × β))
    (k : String) :
    mapGet ((k0, v0) :: t) k = if k0 = k then some v0 else mapGet t k := by
  by_cases hk : k0 = k
  · simp [mapGet, List.find?_cons, hk]
  · simp [mapGet, List.find?_cons, hk]

theorem mapGet_mapSet_self {β : Type} :
    ∀ (m : List (String × β)) (k : String) (v : β),
      mapGet (mapSet m k v) k = some v
  | [], k, v => by simp [mapGet, mapSet]
  | (k0, v0) :: t, k, v => by
    by_cases hk : k0 = k
    · simp [mapSet, hk, mapGet_cons]
    · rw [mapSet, if_neg hk, mapGet_cons, if_neg hk]
      exact mapGet_mapSet_self t k v

theorem mapGet_mapSet_ne {β : Type} :
    ∀ (m : List (String × β)) (k k2 : String) (v : β), k2 ≠ k →
      mapGet (mapSet m k v) k2 = mapGet m k2
  | [], k, k2, v, hne => by
    rw [mapSet, mapGet_cons, if_neg (fun he => hne he.symm)]
  | (k0, v0) :: t, k, k2, v, hne => by
    by_cases hk : k0 = k
    · subst hk
      rw [mapSet, if_pos rfl, mapGet_cons, mapGet_cons,
        if_neg (fun he => hne he.symm), if_neg (fun he => hne he.symm)]
    · rw [mapSet, if_neg hk, mapGet_cons, mapGet_cons]
      by_cases hk2 : k0 = k2
      · rw [if_pos hk2, if_pos hk2]
      · rw [if_neg hk2, if_neg hk2]
        exact mapGet_mapSet_ne t k k2 v hne

theorem mapGet_mapDelete_self {β : Type} :
    ∀ (m : List (String × β)) (k : String), mapGet (mapDelete m k) k = none
  | [], k => by simp [mapGet, mapDelete]
  | (k0, v0) :: t, k => by
    by_cases hk : k0 = k
    · subst hk
      rw [mapDelete, List.filter_cons_of_neg (by simp)]
      exact mapGet_mapDelete_self t k0
    · rw [mapDelete, List.filter_cons_of_pos (by simpa using hk), mapGet_cons, if_neg hk]
      exact mapGet_mapDelete_self t k

theorem mapGet_mapDelete_ne {β : Type} :
    ∀ (m : List (String × β)) (k k2 : String), k2 ≠ k →
      mapGet (mapDelete m k) k2 = mapGet m k2
  | [], k, k2, hne => by simp [mapGet, mapDelete]
  | (k0, v0) :: t, k, k2, hne => by
    by_cases hk : k0 = k
    · subst hk
      rw [mapDelete, List.filter_cons_of_neg (by simp), mapGet_cons,
        if_neg (fun he => hne he.symm)]
      exact mapGet_mapDelete_ne t k0 k2 hne
    · rw [mapDelete, List.filter_cons_of_pos (by simpa using hk), mapGet_cons, mapGet_cons]
      by_cases hk2 : k0 = k2
      · rw [if_pos hk2, if_pos hk2]
      · rw [if_neg hk2, if_neg hk2]
        exact mapGet_mapDelete_ne t k k2 hne

/-! ### Heap–table agreement: preservation by each cache operation -/

theorem hs_initial (cfg : CacheConfig) : HeapSync (initialState cfg) := by
  constructor
  · simp [initialState, NodupKeys, heapKeys]
  · intro k e hget
    simp [initialState, mapGet] at hget

theorem checkItemExpiry_false {s : CacheState} {key : String} {item : Entry}
    {now : Int} (hf : (checkItemExpiry s key item now).1 = false) :
    (checkItemExpiry s key item now).2 = s := by
  rcases hexp : item.expiresAt with _ | t
  · simp only [checkItemExpiry, hexp]
  · simp only [checkItemExpiry, hexp] at hf ⊢
    by_cases hgt : now > t
    · rw [if_pos hgt] at hf
      simp at hf
    · rw [if_neg hgt]

theorem checkItemExpiry_heap (s : CacheState) (key : String) (item : Entry)
    (now : Int) : (checkItemExpiry s key item now).2.heap = s.heap := by
  rcases hexp : item.expiresAt with _ | t
  · simp only [checkItemExpiry, hexp]
  · simp only [checkItemExpiry, hexp]
    by_cases hgt : now > t
    · rw [if_pos hgt]
    · rw [if_neg hgt]

theorem checkItemExpiry_cfg (s : CacheState) (key : String) (item : Entry)
    (now : Int) : (checkItemExpiry s key item now).2.cfg = s.cfg := by
  rcases hexp : item.expiresAt with _ | t
  · simp only [checkItemExpiry, hexp]
  · simp only [checkItemExpiry, hexp]
    by_cases hgt : now > t
    · rw [if_pos hgt]
    · rw [if_neg hgt]

theorem checkItemExpiry_entries (s : CacheState) (key : String) (item : Entry)
    (now : Int) (k2 : String) :
    mapGet (checkItemExpiry s key item now).2.entries k2 = mapGet s.entries k2 ∨
      mapGet (checkItemExpiry s key item now).2.entries k2 = none := by
  rcases hexp : item.expiresAt with _ | t
  · simp only [checkItemExpiry, hexp]
    exact Or.inl trivial
  · simp only [checkItemExpiry, hexp]
    by_cases hgt : now > t
    · rw [if_pos hgt]
      by_cases hk : k2 = key
      · subst hk
        exact Or.inr (mapGet_mapDelete_self _ _)
      · exact Or.inl (mapGet_mapDelete_ne _ _ _ hk)
    · rw [if_neg hgt]
      exact Or.inl rfl

theorem hs_checkItemExpiry {s : CacheState} (key : String) (item : Entry)
    (now : Int) (hs : HeapSync s) : HeapSync (checkItemExpiry s key item now).2 := by
  obtain ⟨hnd, hmem⟩ := hs
  constructor
  · rw [checkItemExpiry_heap]
    exact hnd
  · intro k2 e hget t hexp
    rw [checkItemExpiry_heap]
    rcases checkItemExpiry_entries s key item now k2 with he | he
    · rw [he] at hget
      exact hmem k2 e hget t hexp
    · rw [he] at hget
      cases hget

theorem hs_evictLRU {s : CacheState} (hs : HeapSync s) : HeapSync (evictLRU s) := by
  obtain ⟨hnd, hmem⟩ := hs
  unfold evictLRU
  split
  · exact ⟨hnd, hmem⟩
  · rcases s.lruList.getLast? with _ | k
    · exact ⟨hnd, hmem⟩
    · constructor
      · exact hnd
      · intro k2 e hget t hexp
        by_cases hk : k2 = k
        · subst hk
          rw [mapGet_mapDelete_self] at hget
          cases hget
        · rw [mapGet_mapDelete_ne _ _ _ hk] at hget
          exact hmem k2 e hget t hexp

theorem evictLRU_heap (s : CacheState) : (evictLRU s).heap = s.heap := by
  unfold evictLRU
  split
  · rfl
  · rcases s.lruList.getLast? with _ | k
    · rfl
    · rfl

theorem evictLRU_cfg (s : CacheState) : (evictLRU s).cfg = s.cfg := by
  unfold evictLRU
  split
  · rfl
  · rcases s.lruList.getLast? with _ | k
    · rfl
    · rfl

/-- Heap–table agreement only reads the entry table and the heap, so it
transfers along equal fields. -/
theorem heapSync_of_fields {s s2 : CacheState} (he : s2.entries = s.entries)
    (hh : s2.heap = s.heap) (hs : HeapSync s) : HeapSync s2 := by
  obtain ⟨hnd, hmem⟩ := hs
  constructor
  · rw [hh]
    exact hnd
  · intro k e hget t hexp
    rw [hh]
    rw [he] at hget
    exact hmem k e hget t hexp

/-- The body of `set` preserves heap–table agreement. -/
theorem hs_setCore (s : CacheState) (key : String) (v : Int) (ttl : TTLArg)
    (now : Int) (hs : HeapSync s) : HeapSync (setCore s key v ttl now) := by
  unfold setCore
  set s1 := if (mapGet s.entries key).isSome then
      { s with lruList := removeFromLRU s.lruList key }
    else if s.entries.length ≥ s.cfg.maxSize then evictLRU s else s with hs1def
  have hsync1 : HeapSync s1 := by
    rw [hs1def]
    split
    · exact heapSync_of_fields rfl rfl hs
    · split
      · exact hs_evictLRU hs
      · exact hs
  have hheap1 : s1.heap = s.heap := by
    rw [hs1def]
    split
    · rfl
    · split
      · exact evictLRU_heap s
      · rfl
  have hent1 : ∀ k2, k2 ≠ key →
      mapGet s1.entries k2 = mapGet s.entries k2 ∨ mapGet s1.entries k2 = none := by
    intro k2 _
    rw [hs1def]
    split
    · exact Or.inl rfl
    · split
      · unfold evictLRU
        split
        · exact Or.inl rfl
        · rcases s.lruList.getLast? with _ | kl
          · exact Or.inl rfl
          · by_cases hk2 : k2 = kl
            · subst hk2
              exact Or.inr (mapGet_mapDelete_self _ _)
            · exact Or.inl (mapGet_mapDelete_ne _ _ _ hk2)
      · exact Or.inl rfl
  dsimp only
  refine heapSync_of_fields (s := { s1 with
      entries := mapSet s1.entries key
        { value := v, expiresAt := computeExpiresAt ttl s.cfg.defaultTTL now,
          accessCount := 0, createdAt := now }
      usedKeys := setAdd s1.usedKeys key
      stats := { s1.stats with lastSetKey := key }
      heap := addToExpirationHeap s1.heap key
        (computeExpiresAt ttl s.cfg.defaultTTL now) }) ?_ ?_ ?_
  · split
    · rfl
    · rfl
  · split
    · rfl
    · rfl
  · rcases hex : computeExpiresAt ttl s.cfg.defaultTTL now with _ | texp
    · -- never: heap unchanged
      constructor
      · simp only [addToExpirationHeap]
        exact hsync1.1
      · intro k2 e hget t hexp2
        simp only [addToExpirationHeap]
        dsimp only at hget
        by_cases hk2 : k2 = key
        · subst hk2
          rw [mapGet_mapSet_self] at hget
          cases hget
          cases hexp2
        · rw [mapGet_mapSet_ne _ _ _ _ hk2] at hget
          rcases hent1 k2 hk2 with he | he
          · exact hsync1.2 k2 e hget t hexp2
          · rw [he] at hget
            cases hget
    · -- finite: the new item is pushed, superseding any old occurrence
      constructor
      · simp only [addToExpirationHeap]
        exact nodupKeys_heapPush _ hsync1.1
      · intro k2 e hget t hexp2
        simp only [addToExpirationHeap]
        rw [mem_heapPush hsync1.1]
        dsimp only at hget
        by_cases hk2 : k2 = key
        · subst hk2
          rw [mapGet_mapSet_self] at hget
          cases hget
          cases hexp2
          exact Or.inl rfl
        · rw [mapGet_mapSet_ne _ _ _ _ hk2] at hget
          rcases hent1 k2 hk2 with he | he
          · refine Or.inr ⟨?_, by simpa using hk2⟩
            exact hsync1.2 k2 e hget t hexp2
          · rw [he] at hget
            cases hget

/-- `set` preserves heap–table agreement. -/
theorem hs_setOp {s s2 : CacheState} {k : KeyArg} {v : Int} {ttl : TTLArg}
    {now : Int} (hs : HeapSync s) (hok : setOp s k v ttl now = .ok s2) :
    HeapSync s2 := by
  unfold setOp at hok
  rcases hvk : validateKey k with _ | key
  · rw [hvk] at hok
    cases hok
  · rw [hvk] at hok
    rcases hvt : validateTTL ttl with _ | u
    · rw [hvt] at hok
      cases hok
    · rw [hvt] at hok
      dsimp only at hok
      cases hok
      exact hs_setCore s key v ttl now hs

/-- `get` preserves heap–table agreement. -/
theorem hs_getOp {s : CacheState} {k : KeyArg} {now : Int} {r : Option Int × CacheState}
    (hs : HeapSync s) (hok : getOp s k now = .ok r) : HeapSync r.2 := by
  unfold getOp at hok
  rcases hvk : validateKey k with _ | key
  · rw [hvk] at hok
    cases hok
  · rw [hvk] at hok
    dsimp only at hok
    rcases hent : mapGet s.entries key with _ | item
    · rw [hent] at hok
      dsimp only at hok
      cases hok
      exact heapSync_of_fields rfl rfl hs
    · rw [hent] at hok
      dsimp only at hok
      set S1 : CacheState := { s with usedKeys := setAdd s.usedKeys key } with hS1
      have hsync1 : HeapSync S1 := heapSync_of_fields rfl rfl hs
      have hsynccheck := hs_checkItemExpiry (s := S1) key item now hsync1
      by_cases hch1 : (checkItemExpiry S1 key item now).1 = true
      · rw [if_pos hch1] at hok
        cases hok
        exact heapSync_of_fields rfl rfl hsynccheck
      · rw [if_neg hch1] at hok
        have hfalse : (checkItemExpiry S1 key item now).1 = false := by
          simpa using hch1
        have hcheq : (checkItemExpiry S1 key item now).2 = S1 := checkItemExpiry_false hfalse
        rw [hcheq] at hok
        cases hok
        dsimp only
        split
        all_goals (
          constructor
          · exact hs.1
          · intro k2 e hget t hexp
            dsimp only at hget
            by_cases hk2 : k2 = key
            · subst hk2
              rw [mapGet_mapSet_self] at hget
              cases hget
              exact hs.2 k2 item hent t hexp
            · rw [mapGet_mapSet_ne _ _ _ _ hk2] at hget
              exact hs.2 k2 e hget t hexp)

/-- `has` preserves heap–table agreement. -/
theorem hs_hasOp {s : CacheState} {k : KeyArg} {now : Int} {r : Bool × CacheState}
    (hs : HeapSync s) (hok : hasOp s k now = .ok r) : HeapSync r.2 := by
  unfold hasOp at hok
  rcases hvk : validateKey k with _ | key
  · rw [hvk] at hok
    cases hok
  · rw [hvk] at hok
    dsimp only at hok
    rcases hent : mapGet s.entries key with _ | item
    · rw [hent] at hok
      dsimp only at hok
      cases hok
      exact hs
    · rw [hent] at hok
      dsimp only at hok
      cases hok
      exact hs_checkItemExpiry (s := s) key item now hs

/-- `delete` preserves heap–table agreement (the heap keeps the deleted
key's occurrence; only the entry-table side of the invariant is needed). -/
theorem hs_deleteOp {s : CacheState} {k : KeyArg} {r : Bool × CacheState}
    (hs : HeapSync s) (hok : deleteOp s k = .ok r) : HeapSync r.2 := by
  unfold deleteOp at hok
  rcases hvk : validateKey k with _ | key
  · rw [hvk] at hok
    cases hok
  · rw [hvk] at hok
    dsimp only at hok
    split at hok
    · cases hok
      constructor
      · exact hs.1
      · intro k2 e hget t hexp
        dsimp only at hget
        by_cases hk2 : k2 = key
        · subst hk2
          rw [mapGet_mapDelete_self] at hget
          cases hget
        · rw [mapGet_mapDelete_ne _ _ _ hk2] at hget
          exact hs.2 k2 e hget t hexp
    · cases hok
      exact hs

/-- `updateTTL` preserves heap–table agreement. -/
theorem hs_updateTTLOp {s : CacheState} {k : KeyArg} {ttl : TTLArg} {now : Int}
    {r : Bool × CacheState} (hs : HeapSync s)
    (hok : updateTTLOp s k ttl now = .ok r) : HeapSync r.2 := by
  unfold updateTTLOp at hok
  rcases hvk : validateKey k with _ | key
  · rw [hvk] at hok
    cases hok
  · rw [hvk] at hok
    rcases hvt : validateTTL ttl with _ | u
    · rw [hvt] at hok
      cases hok
    · rw [hvt] at hok
      dsimp only at hok
      rcases hent : mapGet s.entries key with _ | item
      · rw [hent] at hok
        dsimp only at hok
        cases hok
        exact hs
      · rw [hent] at hok
        dsimp only at hok
        by_cases hch1 : (checkItemExpiry s key item now).1 = true
        · rw [if_pos hch1] at hok
          cases hok
          exact hs_checkItemExpiry (s := s) key item now hs
        · rw [if_neg hch1] at hok
          have hfalse : (checkItemExpiry s key item now).1 = false := by
            simpa using hch1
          have hcheq : (checkItemExpiry s key item now).2 = s :=
            checkItemExpiry_false hfalse
          rw [hcheq] at hok
          cases hok
          rcases ttl with _ | _ | n | _ | _
          · dsimp only [addToExpirationHeap]
            constructor
            · exact nodupKeys_heapPush _ hs.1
            · intro k2 e hget t hexp
              rw [mem_heapPush hs.1]
              dsimp only at hget
              by_cases hk2 : k2 = key
              · subst hk2
                rw [mapGet_mapSet_self] at hget
                cases hget
                cases hexp
                exact Or.inl rfl
              · rw [mapGet_mapSet_ne _ _ _ _ hk2] at hget
                exact Or.inr ⟨hs.2 k2 e hget t hexp, by simpa using hk2⟩
          · dsimp only [addToExpirationHeap]
            constructor
            · exact hs.1
            · intro k2 e hget t hexp
              dsimp only at hget
              by_cases hk2 : k2 = key
              · subst hk2
                rw [mapGet_mapSet_self] at hget
                cases hget
                cases hexp
              · rw [mapGet_mapSet_ne _ _ _ _ hk2] at hget
                exact hs.2 k2 e hget t hexp
          · dsimp only [addToExpirationHeap]
            constructor
            · exact nodupKeys_heapPush _ hs.1
            · intro k2 e hget t hexp
              rw [mem_heapPush hs.1]
              dsimp only at hget
              by_cases hk2 : k2 = key
              · subst hk2
                rw [mapGet_mapSet_self] at hget
                cases hget
                cases hexp
                exact Or.inl rfl
              · rw [mapGet_mapSet_ne _ _ _ _ hk2] at hget
                exact Or.inr ⟨hs.2 k2 e hget t hexp, by simpa using hk2⟩
          · dsimp only [addToExpirationHeap]
            constructor
            · exact nodupKeys_heapPush _ hs.1
            · intro k2 e hget t hexp
              rw [mem_heapPush hs.1]
              dsimp only at hget
              by_cases hk2 : k2 = key
              · subst hk2
                rw [mapGet_mapSet_self] at hget
                cases hget
                cases hexp
                exact Or.inl rfl
              · rw [mapGet_mapSet_ne _ _ _ _ hk2] at hget
                exact Or.inr ⟨hs.2 k2 e hget t hexp, by simpa using hk2⟩
          · dsimp only [addToExpirationHeap]
            constructor
            · exact nodupKeys_heapPush _ hs.1
            · intro k2 e hget t hexp
              rw [mem_heapPush hs.1]
              dsimp only at hget
              by_cases hk2 : k2 = key
              · subst hk2
                rw [mapGet_mapSet_self] at hget
                cases hget
                cases hexp
                exact Or.inl rfl
              · rw [mapGet_mapSet_ne _ _ _ _ hk2] at hget
                exact Or.inr ⟨hs.2 k2 e hget t hexp, by simpa using hk2⟩

/-- The cleanup loop preserves heap–table agreement. -/
theorem hs_cleanupLoop (fuel : Nat) :
    ∀ (s : CacheState) (now : Int) (cnt : Nat), HeapSync s →
      HeapSync (cleanupLoop fuel s now cnt).1 := by
  induction fuel with
  | zero =>
    intro s now cnt hs
    exact hs
  | succ n ih =>
    intro s now cnt hs
    rw [cleanupLoop]
    rcases hpk : heapPeek s.heap with _ | next
    · exact hs
    · dsimp only
      by_cases hgt : next.expiresAt > now
      · rw [if_pos hgt]
        exact hs
      · rw [if_neg hgt]
        have hhead : s.heap.head? = some next := hpk
        have hmempop : ∀ (x : HeapItem), x.key ≠ next.key →
            (x ∈ s.heap → x ∈ (heapPop s.heap).2) := by
          intro x hx hmem
          exact (mem_heapPop hhead hx).mpr hmem
        have hndpop : NodupKeys (heapPop s.heap).2 := nodupKeys_heapPop hs.1
        split
        · refine ih _ now (cnt + 1) ?_
          constructor
          · exact hndpop
          · intro k2 e hget t hexp
            dsimp only at hget
            by_cases hk2 : k2 = next.key
            · subst hk2
              rw [mapGet_mapDelete_self] at hget
              cases hget
            · rw [mapGet_mapDelete_ne _ _ _ hk2] at hget
              exact hmempop _ (by simpa using hk2) (hs.2 k2 e hget t hexp)
        · refine ih _ now cnt ?_
          rename_i hnone
          constructor
          · exact hndpop
          · intro k2 e hget t hexp
            dsimp only at hget
            by_cases hk2 : k2 = next.key
            · subst hk2
              rw [Option.not_isSome_iff_eq_none] at hnone
              rw [hnone] at hget
              cases hget
            · exact hmempop _ (by simpa using hk2) (hs.2 k2 e hget t hexp)

/-- `cleanup` preserves heap–table agreement. -/
theorem hs_cleanupOp {s : CacheState} (now : Int) (hs : HeapSync s) :
    HeapSync (cleanupOp s now).1 := by
  unfold cleanupOp
  dsimp only
  rcases hloop : cleanupLoop s.heap.length s now 0 with ⟨s2, cnt⟩
  have := hs_cleanupLoop s.heap.length s now 0 hs
  rw [hloop] at this
  exact heapSync_of_fields rfl rfl this

/-- A single API call (with the state kept unchanged when validation
throws) preserves heap–table agreement. -/
theorem hs_applyOp (s : CacheState) (op : CacheOp) (hs : HeapSync s) :
    HeapSync (applyOp s op) := by
  rcases op with ⟨k, v, ttl, now⟩ | ⟨k, now⟩ | ⟨k, now⟩ | k | ⟨k, ttl, now⟩ | now
  · unfold applyOp
    rcases hop : setOp s k v ttl now with e | s2
    · simpa [hop] using hs
    · simpa [hop] using hs_setOp hs hop
  · unfold applyOp
    rcases hop : getOp s k now with e | r
    · simpa [hop] using hs
    · simpa [hop] using hs_getOp hs hop
  · unfold applyOp
    rcases hop : hasOp s k now with e | r
    · simpa [hop] using hs
    · simpa [hop] using hs_hasOp hs hop
  · unfold applyOp
    rcases hop : deleteOp s k with e | r
    · simpa [hop] using hs
    · simpa [hop] using hs_deleteOp hs hop
  · unfold applyOp
    rcases hop : updateTTLOp s k ttl now with e | r
    · simpa [hop] using hs
    · simpa [hop] using hs_updateTTLOp hs hop
  · unfold applyOp
    exact hs_cleanupOp now hs

theorem mapGet_eq_none_iff {β : Type} :
    ∀ {m : List (String × β)} {k : String},
      mapGet m k = none ↔ k ∉ m.map Prod.fst
  | [], k => by simp [mapGet]
  | (k0, v0) :: t, k => by
    rw [mapGet_cons]
    by_cases hk : k0 = k
    · simp [hk]
    · simp only [if_neg hk, List.map_cons, List.mem_cons]
      rw [mapGet_eq_none_iff]
      constructor
      · intro hn hmem
        rcases hmem with he | hmem
        · exact hk he.symm
        · exact hn hmem
      · intro hn hmem
        exact hn (Or.inr hmem)


/-! ### Scheduler-side heap-table agreement -/

theorem queueSync_of_fields (q : QueueState) (hnd : NodupKeys q.heap)
    (hmem : ∀ it ∈ q.heap, (mapGet q.tasks it.key).isSome = true) :
    QueueSync q :=
  ⟨hnd, hmem⟩

theorem qs_initial (a b c : Int) : QueueSync (initialQueue a b c) := by
  constructor
  · simp [initialQueue, NodupKeys, heapKeys]
  · intro it hit
    simp [initialQueue] at hit

theorem qs_push_mapSet (tasks : List (String × STask)) (h : List HeapItem)
    (task : STask) (hnd : NodupKeys h)
    (hmem : ∀ it ∈ h, it.key ≠ task.id → (mapGet tasks it.key).isSome = true) :
    ∀ it ∈ heapPush h (toHeapItem task),
      (mapGet (mapSet tasks task.id task) it.key).isSome = true := by
  intro it hit
  rcases (mem_heapPush hnd).mp hit with rfl | ⟨hin, hne⟩
  · rw [toHeapItem]
    dsimp only
    rw [mapGet_mapSet_self]
    rfl
  · have hne2 : it.key ≠ task.id := hne
    rw [mapGet_mapSet_ne tasks task.id it.key task hne2]
    exact hmem it hin hne2

theorem qs_addTask (q : QueueState) (id : String) (interval priority : Int)
    (maxE : Option Nat) (deb : Option Int) (now : Int) (hq : QueueSync q) :
    QueueSync (addTask q id interval priority maxE deb now) := by
  unfold addTask
  dsimp only
  by_cases h : (mapGet q.tasks id).isSome = true
  · rw [if_pos h]
    refine queueSync_of_fields _ ?_ ?_
    · exact nodupKeys_heapPush _ (nodupKeys_heapRemove _ hq.1)
    · refine qs_push_mapSet q.tasks _ _ (nodupKeys_heapRemove _ hq.1) ?_
      intro it hit hne
      exact hq.2 it ((mem_heapRemove hq.1).mp hit).1
  · rw [if_neg h]
    refine queueSync_of_fields _ ?_ ?_
    · exact nodupKeys_heapPush _ hq.1
    · refine qs_push_mapSet q.tasks _ _ hq.1 ?_
      intro it hit hne
      exact hq.2 it hit

theorem qs_removeTask (q : QueueState) (id : String) (hq : QueueSync q) :
    QueueSync (removeTask q id).2 := by
  unfold removeTask
  dsimp only
  by_cases h : (mapGet q.tasks id).isSome = true
  · rw [if_pos h]
    have hq1 : QueueSync
        { q with tasks := mapDelete q.tasks id, heap := (heapRemove q.heap id).2 } := by
      refine queueSync_of_fields _ ?_ ?_
      · exact nodupKeys_heapRemove _ hq.1
      · dsimp only
        intro it hit
        have h2 := (mem_heapRemove hq.1).mp hit
        rw [mapGet_mapDelete_ne q.tasks id it.key h2.2]
        exact hq.2 it h2.1
    dsimp only
    split
    · exact queueSync_of_fields _ hq1.1 hq1.2
    · exact hq1
  · rw [if_neg h]
    exact hq

theorem qs_pauseTask (q : QueueState) (id : String) (now : Int)
    (hq : QueueSync q) : QueueSync (pauseTask q id now) := by
  unfold pauseTask
  rcases hg : mapGet q.tasks id with _ | t
  · exact hq
  · dsimp only
    split
    · refine queueSync_of_fields _ hq.1 ?_
      intro it hit
      by_cases hk : it.key = id
      · rw [hk, mapGet_mapSet_self]
        rfl
      · rw [mapGet_mapSet_ne q.tasks id it.key _ hk]
        exact hq.2 it hit
    · exact hq

theorem qs_resumeTask (q : QueueState) (id : String) (hq : QueueSync q) :
    QueueSync (resumeTask q id) := by
  unfold resumeTask
  rcases hg : mapGet q.tasks id with _ | t
  · exact hq
  · dsimp only
    split
    · refine queueSync_of_fields _ hq.1 ?_
      intro it hit
      by_cases hk : it.key = id
      · rw [hk, mapGet_mapSet_self]
        rfl
      · rw [mapGet_mapSet_ne q.tasks id it.key _ hk]
        exact hq.2 it hit
    · exact hq

theorem qs_applyQOp (q : QueueState) (op : QOp) (hq : QueueSync q) :
    QueueSync (applyQOp q op) := by
  cases op with
  | add id interval priority maxE deb now =>
    exact qs_addTask q id interval priority maxE deb now hq
  | remove id => exact qs_removeTask q id hq
  | pause id now => exact qs_pauseTask q id now hq
  | resume id => exact qs_resumeTask q id hq

/-- Cache-side agreement after any run of operations. -/
theorem hs_run (cfg : CacheConfig) (ops : List CacheOp) :
    HeapSync (applyOps (initialState cfg) ops) := by
  unfold applyOps
  suffices hgen : ∀ (s : CacheState), HeapSync s → HeapSync (ops.foldl applyOp s) from
    hgen _ (hs_initial cfg)
  induction ops with
  | nil =>
    intro s hs
    exact hs
  | cons op rest ih =>
    intro s hs
    exact ih _ (hs_applyOp s op hs)

/-- Scheduler-side agreement after any run of task operations. -/
theorem qs_run (a b c : Int) (qops : List QOp) :
    QueueSync (applyQOps (initialQueue a b c) qops) := by
  unfold applyQOps
  suffices hgen : ∀ (q : QueueState), QueueSync q → QueueSync (qops.foldl applyQOp q) from
    hgen _ (qs_initial a b c)
  induction qops with
  | nil =>
    intro q hq
    exact hq
  | cons op rest ih =>
    intro q hq
    exact ih _ (qs_applyQOp q op hq)

/-! ## Claims -/

/-- C1 (counterexample): `delete(key)` on a key stored with a finite TTL
does NOT remove the key's occurrence from the expiration heap — `delete`
(Cache.js lines 357–376) never touches `_expirationHeap`.  After
`set("a", 7, 100)` at time 0 followed by `delete("a")`, the delete reports
`true` and the entry is gone, yet the heap still holds key `"a"`. -/
theorem C1_cex_delete_leaves_heap_occurrence :
    ((setOp (initialState ⟨.null, 10, false, false⟩) (.str "a") 7 (.fin 100) 0).bind
      (fun s1 => (deleteOp s1 (.str "a")).map
        (fun r => (r.1, heapHasKey r.2.heap "a", (mapGet r.2.entries "a").isSome))))
      = .ok (true, true, false) := by
  decide

/-- C1 (amended): heap–table agreement on both heaps, in the directions
the code maintains.  Cache side: after any sequence of
`set`/`get`/`has`/`delete`/`updateTTL`/`cleanup` calls starting from a
fresh cache, the expiration heap's keys are pairwise distinct and every
live entry with a finite `expiresAt` has its occurrence
`⟨key, expiresAt⟩` in the heap; the converse direction of the original
claim — every heap key refers to a live entry — is refuted by `delete`
(and LRU eviction), which leave stale heap occurrences behind for
`cleanup` to discard lazily (see the counterexample).  Scheduler side:
after any sequence of task add / task remove (and pause/resume)
operations starting from a fresh queue, the execution heap's keys are
pairwise distinct and every key present in the execution heap refers to a
live task in the task table, fully as originally claimed: `addTask`
dedup-pushes and `removeTask` removes the heap occurrence along with the
task. -/
theorem C1_heap_table_agreement :
    (∀ (cfg : CacheConfig) (ops : List CacheOp),
      HeapSync (applyOps (initialState cfg) ops)) ∧
    (∀ (a b c : Int) (qops : List QOp),
      QueueSync (applyQOps (initialQueue a b c) qops)) :=
  ⟨hs_run, qs_run⟩

/-- C7 (counterexample): the adaptive tick delay is NOT
`clamp(timeUntilNextHeapItem, minTickInterval, maxTickInterval)`:
`calculateNextTickDelay` (TaskQueue.js lines 280–298) hardcodes `5000` as
the ceiling and never reads `this.maxTickInterval`.  With
`minTickInterval = 100`, `maxTickInterval = 10000` and the next task due in
8000 ms, the code returns 5000 while the claimed formula gives 8000. -/
theorem C7_cex_maxTickInterval_ignored :
    calculateNextTickDelay
        { (initialQueue 100 10000 1) with heap := [⟨"t", 8000⟩] } 0 = 5000 ∧
      specClaimedTickDelay
        { (initialQueue 100 10000 1) with heap := [⟨"t", 8000⟩] } 0 = 8000 ∧
      (5000 : Int) ≠ 8000 := by
  refine ⟨by rfl, by rfl, by decide⟩

/-- C7 (amended): the scheduler's next-tick delay equals
`clamp(timeUntilNextHeapItem, minTickInterval, 5000)` — the ceiling is the
constant 5000, independent of the configured `maxTickInterval` — and with
an empty execution heap it is `minTickInterval`. -/
theorem C7_tick_delay_amended (q : QueueState) (now : Int) :
    (∀ m : Int, calculateNextTickDelay { q with maxTickInterval := m } now =
        calculateNextTickDelay q now) ∧
      (q.heap = [] → calculateNextTickDelay q now = q.minTickInterval) ∧
      (∀ it : HeapItem, heapPeek q.heap = some it →
        calculateNextTickDelay q now =
          clamp (max 0 (it.expiresAt - now)) q.minTickInterval 5000) := by
  refine ⟨fun m => rfl, ?_, ?_⟩
  · intro hq
    unfold calculateNextTickDelay
    rw [hq]
    rfl
  · intro it hit
    unfold calculateNextTickDelay
    have hlen : ¬ q.heap.length = 0 := by
      intro h0
      rw [List.length_eq_zero] at h0
      rw [h0] at hit
      cases hit
    rw [if_neg hlen, hit]
    dsimp only
    unfold clamp
    rfl

/-- C7 (witness): the amended delay formula instantiated at a concrete
queue whose next task is due in 8000 ms. -/
theorem C7_tick_delay_amended_witness :
    calculateNextTickDelay
        { (initialQueue 100 10000 1) with heap := [⟨"t", 8000⟩] } 0 =
      clamp (max 0 ((8000 : Int) - 0)) 100 5000 := by
  have h := (C7_tick_delay_amended
    { (initialQueue 100 10000 1) with heap := [⟨"t", 8000⟩] } 0).2.2
    ⟨"t", 8000⟩ (by rfl)
  exact h

/-- C10: `set(key, value, 0)` passes TTL validation (0 is accepted as a
non-negative finite number), but the effective TTL is computed as
`ttl || defaultTTL` (Cache.js line 226), and `0` is falsy, so the stored
`expiresAt` is exactly the one `set(key, value, null)` (ttl omitted)
produces: the two calls are indistinguishable on every state. -/
theorem C10_ttl_zero_uses_default :
    validateTTL (.fin 0) = .ok () ∧
      ∀ (s : CacheState) (k : KeyArg) (v : Int) (now : Int),
        setOp s k v (.fin 0) now = setOp s k v .null now := by
  constructor
  · rfl
  · intro s k v now
    rfl


/-- C5 (counterexample): at the boundary instant `now = expiresAt`, `get`
returns the value (non-null) — `_checkItemExpiry` (Cache.js line 668) uses
the strict test `Date.now() > item.expiresAt` — refuting the claim that
`get` is non-null iff `now < expiresAt` (and that a get exactly `ttl`
milliseconds after the set returns null): after `set("a", 7, 100)` at time
0, the entry carries `expiresAt = 100` and `get("a")` at time 100 yields 7. -/
theorem C5_cex_boundary_equality :
    ((setOp (initialState ⟨.null, 10, false, false⟩) (.str "a") 7 (.fin 100) 0).map
        (fun s1 => (mapGet s1.entries "a").map Entry.expiresAt))
      = .ok (some (.fin 100)) ∧
    ((setOp (initialState ⟨.null, 10, false, false⟩) (.str "a") 7 (.fin 100) 0).bind
        (fun s1 => (getOp s1 (.str "a") 100).map (fun r => r.1))) = .ok (some 7) ∧
    ¬ ((100 : Int) < 100) := by
  refine ⟨by decide, by decide, by decide⟩

/-- C5 (amended): for a key holding a live entry, `get` returns non-null
iff `now ≤ expiresAt` (non-strict; entries with the `Infinity` sentinel
always return non-null); once `now` is strictly past `expiresAt`, `get`
returns null, counts an expired miss, and lazily deletes the entry. -/
theorem C5_get_expiry_amended (s : CacheState) (k : KeyArg) (key : String)
    (item : Entry) (now : Int)
    (hk : validateKey k = .ok key) (he : mapGet s.entries key = some item) :
    ∃ r : Option Int × CacheState, getOp s k now = .ok r ∧
      (r.1.isSome ↔
        (item.expiresAt = .never ∨ ∃ t, item.expiresAt = .fin t ∧ now ≤ t)) ∧
      (∀ t, item.expiresAt = .fin t → t < now →
        r.1 = none ∧ r.2.stats.missesExpired = s.stats.missesExpired + 1 ∧
          mapGet r.2.entries key = none) := by
  unfold getOp
  rw [hk]
  dsimp only
  rw [he]
  dsimp only
  set S1 : CacheState := { s with usedKeys := setAdd s.usedKeys key } with hS1
  rcases hexp : item.expiresAt with _ | t
  · have hch : checkItemExpiry S1 key item now = (false, S1) := by
      simp only [checkItemExpiry, hexp]
    simp only [hch]
    rw [if_neg (by simp : ¬ ((false, S1).1 = true))]
    refine ⟨_, rfl, ?_, ?_⟩
    · simp
    · intro t' hfin
      cases hfin
  · by_cases hgt : now > t
    · have hch : checkItemExpiry S1 key item now =
          (true, { S1 with
            entries := mapDelete S1.entries key
            lruList := removeFromLRU S1.lruList key
            stats := { S1.stats with evictionsTTL := S1.stats.evictionsTTL + 1 } }) := by
        simp only [checkItemExpiry, hexp]
        rw [if_pos hgt]
      simp only [hch]
      rw [if_pos (by simp)]
      refine ⟨_, rfl, ?_, ?_⟩
      · constructor
        · intro hsome
          simp at hsome
        · rintro (hnev | ⟨t', ht', hle⟩)
          · cases hnev
          · cases ht'
            omega
      · intro t' hfin hlt
        refine ⟨rfl, rfl, ?_⟩
        exact mapGet_mapDelete_self _ _
    · have hle : now ≤ t := by omega
      have hch : checkItemExpiry S1 key item now = (false, S1) := by
        simp only [checkItemExpiry, hexp]
        rw [if_neg hgt]
      simp only [hch]
      rw [if_neg (by simp : ¬ ((false, S1).1 = true))]
      refine ⟨_, rfl, ?_, ?_⟩
      · constructor
        · intro _
          exact Or.inr ⟨t, rfl, hle⟩
        · intro _
          simp
      · intro t' hfin hlt
        cases hfin
        omega

/-- C5 (witness): the amended statement instantiated at a concrete cache
holding `"a" ↦ 7` with `expiresAt = 100`, read at time 100. -/
theorem C5_get_expiry_amended_witness :
    ∃ r : Option Int × CacheState,
      getOp { cfg := ⟨.null, 10, false, false⟩,
              entries := [("a", ⟨7, .fin 100, 0, 0⟩)], lruList := [],
              heap := [⟨"a", 100⟩], usedKeys := ["a"],
              stats := ⟨0, 0, 0, 0, 0, 0, 0, 0, ""⟩ } (.str "a") 100 = .ok r ∧
      (r.1.isSome ↔
        ((⟨7, .fin 100, 0, 0⟩ : Entry).expiresAt = .never ∨
          ∃ t, (⟨7, .fin 100, 0, 0⟩ : Entry).expiresAt = .fin t ∧ (100 : Int) ≤ t)) ∧
      (∀ t, (⟨7, .fin 100, 0, 0⟩ : Entry).expiresAt = .fin t → t < 100 →
        r.1 = none ∧
          r.2.stats.missesExpired =
            ({ cfg := ⟨.null, 10, false, false⟩,
               entries := [("a", ⟨7, .fin 100, 0, 0⟩)], lruList := [],
               heap := [⟨"a", 100⟩], usedKeys := ["a"],
               stats := ⟨0, 0, 0, 0, 0, 0, 0, 0, ""⟩ } : CacheState).stats.missesExpired + 1 ∧
          mapGet r.2.entries "a" = none) :=
  C5_get_expiry_amended _ (.str "a") "a" ⟨7, .fin 100, 0, 0⟩ 100 (by decide) (by decide)

/-- C9: for every invalid key (non-string, or empty/whitespace-only
string) and every invalid ttl (negative, `NaN`, or any non-null
non-`Infinity` non-number), the validating operations throw synchronously
— and since validation precedes every mutation, the cache state is exactly
as before the call (`applyOp` keeps the pre-call state on a thrown
error). -/
theorem C9_validation_no_mutation (s : CacheState) (k : KeyArg) (v : Int)
    (ttl : TTLArg) (now : Int) :
    (validateKey k = .error () →
      setOp s k v ttl now = .error () ∧ getOp s k now = .error () ∧
        hasOp s k now = .error () ∧ deleteOp s k = .error () ∧
        getTTLOp s k now = .error () ∧ updateTTLOp s k ttl now = .error () ∧
        applyOp s (.set k v ttl now) = s ∧ applyOp s (.get k now) = s ∧
        applyOp s (.has k now) = s ∧ applyOp s (.del k) = s ∧
        applyOp s (.updateTTL k ttl now) = s) ∧
    (validateTTL ttl = .error () →
      setOp s k v ttl now = .error () ∧ updateTTLOp s k ttl now = .error () ∧
        applyOp s (.set k v ttl now) = s ∧ applyOp s (.updateTTL k ttl now) = s) := by
  constructor
  · intro hbad
    have hset : setOp s k v ttl now = .error () := by
      unfold setOp
      rw [hbad]
    have hget : getOp s k now = .error () := by
      unfold getOp
      rw [hbad]
    have hhas : hasOp s k now = .error () := by
      unfold hasOp
      rw [hbad]
    have hdel : deleteOp s k = .error () := by
      unfold deleteOp
      rw [hbad]
    have httl : getTTLOp s k now = .error () := by
      unfold getTTLOp
      rw [hbad]
    have hupd : updateTTLOp s k ttl now = .error () := by
      unfold updateTTLOp
      rw [hbad]
    refine ⟨hset, hget, hhas, hdel, httl, hupd, ?_, ?_, ?_, ?_, ?_⟩
    · simp only [applyOp]
      rw [hset]
      rfl
    · simp only [applyOp]
      rw [hget]
      rfl
    · simp only [applyOp]
      rw [hhas]
      rfl
    · simp only [applyOp]
      rw [hdel]
      rfl
    · simp only [applyOp]
      rw [hupd]
      rfl
  · intro hbad
    have hset : setOp s k v ttl now = .error () := by
      unfold setOp
      rcases hvk : validateKey k with u | key
      · rfl
      · rw [hbad]
    have hupd : updateTTLOp s k ttl now = .error () := by
      unfold updateTTLOp
      rcases hvk : validateKey k with u | key
      · rfl
      · rw [hbad]
    refine ⟨hset, hupd, ?_, ?_⟩
    · simp only [applyOp]
      rw [hset]
      rfl
    · simp only [applyOp]
      rw [hupd]
      rfl

/-- C9 (witness): the no-mutation statement instantiated with a non-string
key and a negative ttl on a fresh cache. -/
theorem C9_validation_no_mutation_witness :
    setOp (initialState ⟨.null, 10, false, false⟩) .nonString 7 (.fin (-5)) 0
        = .error () ∧
      applyOp (initialState ⟨.null, 10, false, false⟩)
        (.set .nonString 7 (.fin (-5)) 0) = initialState ⟨.null, 10, false, false⟩ :=
  ⟨((C9_validation_no_mutation (initialState ⟨.null, 10, false, false⟩)
      .nonString 7 (.fin (-5)) 0).1 (by decide)).1,
   ((C9_validation_no_mutation (initialState ⟨.null, 10, false, false⟩)
      .nonString 7 (.fin (-5)) 0).2 (by decide)).2.2.1⟩


/-- C4 (code bug): `pauseTask` marks a task paused without affecting its
heap position or counters, but neither `_processTasks` nor
`ScheduledTask.shouldExecute` ever consults `isPaused`, so a paused, due
task is dispatched exactly like an unpaused one: with one task `"t"` added
at time 0 (interval 10) and then paused, the tick at time 50 dispatches
`"t"` even though the task is flagged paused. -/
theorem C4_paused_task_dispatched :
    ((mapGet (pauseTask (addTask (initialQueue 100 5000 1) "t" 10 0 none none 0)
        "t" 0).tasks "t").map STask.isPaused = some true) ∧
    ((processTick (pauseTask (addTask (initialQueue 100 5000 1) "t" 10 0 none none 0)
        "t" 0) 50).1.map STask.id = ["t"]) := by
  refine ⟨by decide, by decide⟩

/-- C6 (counterexample): when `currentlyExecuting` exceeds `maxConcurrent`
(reachable because `executeNow` starts an execution without checking the
cap), a tick does NOT dispatch zero tasks: `availableSlots` is negative
and `readyTasks.slice(0, availableSlots)` (TaskQueue.js line 737)
interprets the negative bound as an offset from the end of the array.
With `maxConcurrent = 1`, two tasks mid-flight via `executeNow` and two
due ready tasks, the tick dispatches one task. -/
theorem C6_cex_negative_slots_dispatch :
    (let q : QueueState := executeNowStart (executeNowStart
      (addTask (addTask (addTask (addTask (initialQueue 100 5000 1)
        "a" 1000 0 none none 0) "b" 1000 0 none none 0) "c" 10 0 none none 0)
        "d" 10 0 none none 0) "a") "b"
    q.maxConcurrent = 1 ∧ q.currentlyExecuting.length = 2 ∧
      (processTick q 100).1.length = 1) := by
  decide

/-- Dispatch-count bound for a JS end-relative slice with a non-negative
bound, composed with the not-already-executing filter. -/
theorem length_dispatch_le (R : List STask) (P : STask → Bool) (e : Int)
    (he : 0 ≤ e) : (((jsSliceTake R e).filter P).length : Int) ≤ e := by
  have h1 : ((jsSliceTake R e).filter P).length ≤ (jsSliceTake R e).length :=
    List.length_filter_le _ _
  have h2 : (jsSliceTake R e).length ≤ e.toNat := by
    unfold jsSliceTake
    rw [if_neg (by omega)]
    simp [List.length_take]
  omega

/-- C6 (amended): whenever `currentlyExecuting ≤ maxConcurrent`, a tick
dispatches at most `maxConcurrent − currentlyExecuting` new executions.
(When `currentlyExecuting > maxConcurrent`, the negative slot count acts
as an end-relative `slice` bound and a tick can dispatch up to
`readyCount − (currentlyExecuting − maxConcurrent)` tasks, which may be
positive — see the counterexample.) -/
theorem C6_concurrency_cap_amended (q : QueueState) (now : Int)
    (hcap : (q.currentlyExecuting.length : Int) ≤ q.maxConcurrent) :
    ((processTick q now).1.length : Int) ≤
      q.maxConcurrent - q.currentlyExecuting.length := by
  unfold processTick
  split
  · simp only [List.length_nil]
    omega
  · dsimp only
    exact length_dispatch_le _ _ _ (by omega)

/-- C6 (witness): the amended bound instantiated at a queue with
`maxConcurrent = 2`, no execution in flight and one due task. -/
theorem C6_concurrency_cap_amended_witness :
    ((processTick (addTask (initialQueue 100 5000 2) "t" 10 0 none none 0)
        50).1.length : Int) ≤
      (addTask (initialQueue 100 5000 2) "t" 10 0 none none 0).maxConcurrent -
        (addTask (initialQueue 100 5000 2) "t" 10 0 none none 0).currentlyExecuting.length :=
  C6_concurrency_cap_amended _ 50 (by decide)

/-- C3 (counterexample): `updateTTL(key, Infinity)` does not remove the
key's old occurrence from the expiry heap — there is no push for
`Infinity` (Cache.js lines 510–513), hence no dedup — and a later
`cleanup()` run after the stale timestamp deletes the now-never-expiring
entry: after `set("a", 7, 100)` at time 0 and `updateTTL("a", Infinity)`,
the heap still holds `("a", 100)` and `cleanup()` at time 200 removes the
entry. -/
theorem C3_cex_updateTTL_infinity_stale_heap :
    ((setOp (initialState ⟨.null, 10, false, false⟩) (.str "a") 7 (.fin 100) 0).bind
      (fun s1 => (updateTTLOp s1 (.str "a") .inf 0).map
        (fun r =>
          (r.1, r.2.heap, (mapGet r.2.entries "a").map Entry.expiresAt,
            (mapGet (cleanupOp r.2 200).1.entries "a").isSome))))
      = .ok (true, [⟨"a", 100⟩], some .never, false) := by
  decide

/-- C3 (amended): on a live, non-expired key, `updateTTL(key, ttl)`
returns `true` and recomputes `expiresAt`.  For a finite ttl the key is
re-pushed and the heap's dedup-on-push leaves exactly one occurrence of
the key, carrying the new timestamp.  For `ttl = Infinity` nothing is
pushed and the heap is left exactly as it was — in particular a stale
finite occurrence of the key survives (see the counterexample). -/
theorem C3_updateTTL_amended (s : CacheState) (k : KeyArg) (key : String)
    (ttl : TTLArg) (now : Int) (item : Entry)
    (hk : validateKey k = .ok key) (ht : validateTTL ttl = .ok ())
    (he : mapGet s.entries key = some item)
    (hlive : (checkItemExpiry s key item now).1 = false)
    (hnd : NodupKeys s.heap) :
    ∃ s2, updateTTLOp s k ttl now = .ok (true, s2) ∧
      (∀ n, ttl = .fin n →
        mapGet s2.entries key = some { item with expiresAt := .fin (now + n) } ∧
        (⟨key, now + n⟩ : HeapItem) ∈ s2.heap ∧
        (∀ p, (⟨key, p⟩ : HeapItem) ∈ s2.heap → p = now + n)) ∧
      (ttl = .inf →
        mapGet s2.entries key = some { item with expiresAt := .never } ∧
        s2.heap = s.heap) := by
  unfold updateTTLOp
  rw [hk, ht]
  dsimp only
  rw [he]
  dsimp only
  rw [if_neg (by simp [hlive])]
  have hcheq : (checkItemExpiry s key item now).2 = s := checkItemExpiry_false hlive
  rw [hcheq]
  refine ⟨_, rfl, ?_, ?_⟩
  · intro n hn
    subst hn
    dsimp only [addToExpirationHeap]
    refine ⟨mapGet_mapSet_self _ _ _, ?_, ?_⟩
    · rw [mem_heapPush hnd]
      exact Or.inl rfl
    · intro p hp
      rw [mem_heapPush hnd] at hp
      rcases hp with heq | ⟨_, hne⟩
      · cases heq
        rfl
      · exact absurd rfl hne
  · intro hn
    subst hn
    dsimp only [addToExpirationHeap]
    exact ⟨mapGet_mapSet_self _ _ _, rfl⟩

/-- C3 (witness): the amended statement instantiated at a concrete cache
holding `"a"` with `expiresAt = 100`, updated at time 0 with ttl 500. -/
theorem C3_updateTTL_amended_witness :
    ∃ s2, updateTTLOp
        { cfg := ⟨.null, 10, false, false⟩,
          entries := [("a", ⟨7, .fin 100, 0, 0⟩)], lruList := [],
          heap := [⟨"a", 100⟩], usedKeys := ["a"],
          stats := ⟨0, 0, 0, 0, 0, 0, 0, 0, ""⟩ } (.str "a") (.fin 500) 0
        = .ok (true, s2) ∧
      (∀ n, (TTLArg.fin 500) = .fin n →
        mapGet s2.entries "a" =
            some { (⟨7, .fin 100, 0, 0⟩ : Entry) with expiresAt := .fin (0 + n) } ∧
        (⟨"a", 0 + n⟩ : HeapItem) ∈ s2.heap ∧
        (∀ p, (⟨"a", p⟩ : HeapItem) ∈ s2.heap → p = 0 + n)) ∧
      ((TTLArg.fin 500) = .inf →
        mapGet s2.entries "a" =
            some { (⟨7, .fin 100, 0, 0⟩ : Entry) with expiresAt := .never } ∧
        s2.heap = [⟨"a", 100⟩]) :=
  C3_updateTTL_amended _ (.str "a") "a" (.fin 500) 0 ⟨7, .fin 100, 0, 0⟩
    (by decide) (by decide) (by decide) (by decide) (by decide)

/-! Object-store lookup lemmas for the clone model. -/

theorem memGet_cons (a0 : Nat) (v0 : Int) (t : List (Nat × Int)) (a : Nat) :
    memGet ((a0, v0) :: t) a = if a0 = a then v0 else memGet t a := by
  by_cases ha : a0 = a
  · simp [memGet, List.find?_cons, ha]
  · simp [memGet, List.find?_cons, ha]

theorem memGet_memSet_self :
    ∀ (m : List (Nat × Int)) (a : Nat) (v : Int), memGet (memSet m a v) a = v
  | [], a, v => by
    rw [memSet, memGet_cons, if_pos rfl]
  | (a0, v0) :: t, a, v => by
    by_cases ha : a0 = a
    · rw [memSet, if_pos ha, memGet_cons, if_pos rfl]
    · rw [memSet, if_neg ha, memGet_cons, if_neg ha]
      exact memGet_memSet_self t a v

theorem memGet_memSet_ne {a a2 : Nat} (hne : a2 ≠ a) :
    ∀ (m : List (Nat × Int)) (v : Int), memGet (memSet m a v) a2 = memGet m a2
  | [], v => by
    rw [memSet, memGet_cons, if_neg (fun he => hne he.symm)]
  | (a0, v0) :: t, v => by
    by_cases ha : a0 = a
    · subst ha
      rw [memSet, if_pos rfl, memGet_cons, memGet_cons,
        if_neg (fun he => hne he.symm), if_neg (fun he => hne he.symm)]
    · rw [memSet, if_neg ha, memGet_cons, memGet_cons]
      by_cases ha2 : a0 = a2
      · rw [if_pos ha2, if_pos ha2]
      · rw [if_neg ha2, if_neg ha2]
        exact memGet_memSet_ne hne t v

/-- C2 (counterexample): with `enableWeakOptimization`, `get` returns the
clone cached in the identity-keyed `_cloneCache` (Cache.js lines 838–841)
— the same object on every read — so mutating the returned object IS
observed by the next `get`: starting from a store holding one object with
payload 5, the read–mutate(99)–read probe observes 99, not 5. -/
theorem C2_cex_weak_optimization_shared_clone :
    mutationProbe true ⟨[(0, 5)], 1, []⟩ (.ref 0) 99 = 99 ∧
      memGet [(0, 5)] 0 = 5 ∧ (99 : Int) ≠ 5 := by
  refine ⟨by decide, by decide, by decide⟩

/-- C2 (amended): clone isolation holds when the weak-optimization policy
is disabled: `get` deep-clones via `structuredClone` on every read, so a
mutation of the returned object is invisible to a subsequent `get`, which
observes the stored original's payload.  (With `enableWeakOptimization`
the cached clone is shared between reads and isolation fails — see the
counterexample.) -/
theorem C2_clone_isolation_amended (c : CloneCtx) (a : Nat) (mutv : Int)
    (ha : a < c.fresh) :
    mutationProbe false c (.ref a) mutv = memGet c.mem a := by
  have hne1 : a ≠ c.fresh := by omega
  simp [mutationProbe, getReturnedValue, deepClone, mutateReturned, observe,
    memGet_memSet_self, memGet_memSet_ne hne1]

/-- C2 (witness): the amended isolation statement at a store holding one
object with payload 5, mutated to 99 between the two reads. -/
theorem C2_clone_isolation_amended_witness :
    mutationProbe false ⟨[(0, 5)], 1, []⟩ (.ref 0) 99 = memGet [(0, 5)] 0 :=
  C2_clone_isolation_amended ⟨[(0, 5)], 1, []⟩ 0 99 (by decide)


/-! ### LRU eviction (C8): helper lemmas -/

theorem mapSet_append_of_absent {β : Type} :
    ∀ {m : List (String × β)} {k : String} (v : β), mapGet m k = none →
      mapSet m k v = m ++ [(k, v)]
  | [], k, v, _ => rfl
  | (k0, v0) :: t, k, v, habs => by
    rw [mapGet_cons] at habs
    by_cases hk : k0 = k
    · rw [if_pos hk] at habs
      cases habs
    · rw [if_neg hk] at habs
      rw [mapSet, if_neg hk, mapSet_append_of_absent v habs]
      rfl

theorem map_fst_mapDelete {β : Type} :
    ∀ (m : List (String × β)) (k : String),
      (mapDelete m k).map Prod.fst = (m.map Prod.fst).filter (fun x => x != k)
  | [], k => rfl
  | (k0, v0) :: t, k => by
    by_cases hk : k0 = k
    · subst hk
      rw [mapDelete, List.filter_cons_of_neg (by simp), List.map_cons,
        List.filter_cons_of_neg (by simp)]
      exact map_fst_mapDelete t k0
    · rw [mapDelete, List.filter_cons_of_pos (by simpa using hk), List.map_cons,
        List.map_cons, List.filter_cons_of_pos (by simpa using hk)]
      rw [show List.filter (fun p => p.1 != k) t = mapDelete t k from rfl,
        map_fst_mapDelete t k]

/-- One `set` of a fresh key into a not-yet-full LRU cache: the entry is
appended, the key becomes most recently used, nothing is evicted. -/
theorem setCore_fresh_notfull (s : CacheState) (key : String) (v : Int)
    (ttl : TTLArg) (now : Int)
    (habs : mapGet s.entries key = none)
    (hnotfull : ¬ s.entries.length ≥ s.cfg.maxSize)
    (hlru : s.cfg.enableLRU = true) :
    (setCore s key v ttl now).entries =
        s.entries ++
          [(key, ⟨v, computeExpiresAt ttl s.cfg.defaultTTL now, 0, now⟩)] ∧
      (setCore s key v ttl now).lruList = key :: s.lruList ∧
      (setCore s key v ttl now).stats.evictions = s.stats.evictions ∧
      (setCore s key v ttl now).cfg = s.cfg := by
  have hft : ¬ (false = true) := by decide
  unfold setCore
  dsimp only
  rw [if_neg hnotfull, habs, Option.isSome_none, if_neg hft]
  rw [if_pos hlru]
  rw [mapSet_append_of_absent _ habs]
  exact ⟨rfl, rfl, rfl, rfl⟩

/-- One `set` of a fresh key into a full LRU cache: the recency-list tail
is evicted, its entry deleted, `evictions` incremented, and the new entry
appended. -/
theorem setCore_fresh_full (s : CacheState) (key k0 : String) (v : Int)
    (ttl : TTLArg) (now : Int)
    (habs : mapGet s.entries key = none)
    (hfull : s.entries.length ≥ s.cfg.maxSize)
    (hlru : s.cfg.enableLRU = true)
    (hne : s.entries.length ≠ 0)
    (hlast : s.lruList.getLast? = some k0) :
    (setCore s key v ttl now).entries =
        mapDelete s.entries k0 ++
          [(key, ⟨v, computeExpiresAt ttl s.cfg.defaultTTL now, 0, now⟩)] ∧
      (setCore s key v ttl now).lruList = key :: s.lruList.dropLast ∧
      (setCore s key v ttl now).stats.evictions = s.stats.evictions + 1 ∧
      (setCore s key v ttl now).cfg = s.cfg := by
  have hft : ¬ (false = true) := by decide
  have hev : ¬ (¬ s.cfg.enableLRU ∨ s.entries.length = 0) := by
    simp [hlru, hne]
  unfold setCore
  dsimp only
  rw [if_pos hfull, habs, Option.isSome_none, if_neg hft]
  unfold evictLRU
  rw [if_neg hev, hlast]
  dsimp only
  rw [if_pos hlru]
  have habs2 : mapGet (mapDelete s.entries k0) key = none := by
    by_cases hk : key = k0
    · subst hk
      exact mapGet_mapDelete_self _ _
    · rw [mapGet_mapDelete_ne _ _ _ hk]
      exact habs
  rw [mapSet_append_of_absent _ habs2]
  exact ⟨rfl, rfl, rfl, rfl⟩

/-- With valid arguments, the `set` runner step is exactly `setCore`. -/
theorem applyOp_set_ok (s : CacheState) (key : String) (v : Int) (ttl : TTLArg)
    (now : Int) (hvk : validateKey (.str key) = .ok key)
    (hvt : validateTTL ttl = .ok ()) :
    applyOp s (.set (.str key) v ttl now) = setCore s key v ttl now := by
  simp only [applyOp]
  unfold setOp
  rw [hvk, hvt]
  rfl

/-- Filling an empty LRU cache with at most `maxSize` fresh distinct keys:
entry order is insertion order, the recency list is its reverse, and
nothing is evicted. -/
theorem insertKeys_fill (cfg : CacheConfig) (v : Int) (ttl : TTLArg) (now : Int)
    (hlru : cfg.enableLRU = true) (hvt : validateTTL ttl = .ok ()) :
    ∀ (ks : List String), ks.Nodup →
      (∀ x ∈ ks, validateKey (.str x) = .ok x) →
      ks.length ≤ cfg.maxSize →
      (insertKeys (initialState cfg) ks v ttl now).entries.map Prod.fst = ks ∧
        (insertKeys (initialState cfg) ks v ttl now).lruList = ks.reverse ∧
        (insertKeys (initialState cfg) ks v ttl now).stats.evictions = 0 ∧
        (insertKeys (initialState cfg) ks v ttl now).cfg = cfg := by
  intro ks
  induction ks using List.reverseRecOn with
  | nil =>
    intro _ _ _
    exact ⟨rfl, rfl, rfl, rfl⟩
  | append_singleton l x ih =>
    intro hnd hval hlen
    have hsplit := List.nodup_append.mp hnd
    have hndl : l.Nodup := hsplit.1
    have hxl : x ∉ l := by
      intro hmem
      exact hsplit.2.2 hmem (by simp)
    have hlenl : l.length ≤ cfg.maxSize := by
      rw [List.length_append] at hlen
      omega
    obtain ⟨hent, hlru2, hev, hcfg⟩ := ih hndl
      (fun y hy => hval y (by simp [hy])) hlenl
    unfold insertKeys at *
    rw [List.foldl_append, List.foldl_cons, List.foldl_nil]
    set S := List.foldl (fun s k => applyOp s (.set (.str k) v ttl now))
      (initialState cfg) l with hS
    have hvkx : validateKey (.str x) = .ok x := hval x (by simp)
    rw [applyOp_set_ok S x v ttl now hvkx hvt]
    have habs : mapGet S.entries x = none := by
      rw [mapGet_eq_none_iff, hent]
      exact hxl
    have hlenS : S.entries.length = l.length := by
      have := congrArg List.length hent
      simpa using this
    have hlen1 : (l ++ [x]).length = l.length + 1 := by simp
    have hstep := setCore_fresh_notfull S x v ttl now habs
      (by rw [hlenS, hcfg]; omega) (by rw [hcfg]; exact hlru)
    refine ⟨?_, ?_, ?_, ?_⟩
    · rw [hstep.1, List.map_append, hent]
      rfl
    · rw [hstep.2.1, hlru2, List.reverse_append]
      rfl
    · rw [hstep.2.2.1, hev]
    · rw [hstep.2.2.2, hcfg]

/-- C8: with LRU enabled, a `set` at capacity evicts exactly the
least-recently-used entry.  (1) Inserting `maxSize + 1` distinct fresh
keys with no intervening reads into an empty cache evicts exactly the
first-inserted key, leaving the remaining keys in order and
`evictions = 1`.  (2) The spec's concrete scenario: `maxSize = 2`, LRU on,
`set a; set b; get a; set c` ends with `keys() = [a, c]` and
`evictions = 1` (`b`, the recency tail after `a` was touched, was
evicted). -/
theorem C8_lru_eviction :
    (∀ (cfg : CacheConfig) (ks : List String) (v : Int) (ttl : TTLArg) (now : Int),
      cfg.enableLRU = true → validateTTL ttl = .ok () →
      ks.Nodup → (∀ x ∈ ks, validateKey (.str x) = .ok x) →
      ks.length = cfg.maxSize + 1 → 1 ≤ cfg.maxSize →
      (insertKeys (initialState cfg) ks v ttl now).entries.map Prod.fst = ks.tail ∧
        (insertKeys (initialState cfg) ks v ttl now).stats.evictions = 1 ∧
        (∀ k0, ks.head? = some k0 →
          mapGet (insertKeys (initialState cfg) ks v ttl now).entries k0 = none)) ∧
    (keysOp (applyOps (initialState ⟨.fin 1000, 2, true, false⟩)
        [.set (.str "a") 1 .null 0, .set (.str "b") 2 .null 0, .get (.str "a") 0,
          .set (.str "c") 3 .null 0]) 0 = ["a", "c"] ∧
      (applyOps (initialState ⟨.fin 1000, 2, true, false⟩)
        [.set (.str "a") 1 .null 0, .set (.str "b") 2 .null 0, .get (.str "a") 0,
          .set (.str "c") 3 .null 0]).stats.evictions = 1) := by
  constructor
  · intro cfg ks v ttl now hlru hvt hnd hval hlen hmax
    rcases List.eq_nil_or_concat ks with rfl | ⟨l, x, hks⟩
    · rw [List.length_nil] at hlen
      omega
    · have hks2 : ks = l ++ [x] := by simpa using hks
      subst hks2
      have hsplit := List.nodup_append.mp hnd
      have hndl : l.Nodup := hsplit.1
      have hxl : x ∉ l := by
        intro hmem
        exact hsplit.2.2 hmem (by simp)
      have hlenl : l.length = cfg.maxSize := by
        rw [List.length_append] at hlen
        simpa using hlen
      obtain ⟨hent, hlru2, hev, hcfg⟩ :=
        insertKeys_fill cfg v ttl now hlru hvt l hndl
          (fun y hy => hval y (by simp [hy])) (by omega)
      rcases l with _ | ⟨k0, ltail⟩
      · simp at hlenl
        omega
      · unfold insertKeys at *
        rw [List.foldl_append, List.foldl_cons, List.foldl_nil]
        set S := List.foldl (fun s k => applyOp s (.set (.str k) v ttl now))
          (initialState cfg) (k0 :: ltail) with hS
        have hvkx : validateKey (.str x) = .ok x := hval x (by simp)
        rw [applyOp_set_ok S x v ttl now hvkx hvt]
        have habs : mapGet S.entries x = none := by
          rw [mapGet_eq_none_iff, hent]
          exact hxl
        have hlenS : S.entries.length = (k0 :: ltail).length := by
          have := congrArg List.length hent
          simpa using this
        have hlast : S.lruList.getLast? = some k0 := by
          rw [hlru2, List.getLast?_reverse]
          rfl
        have hstep := setCore_fresh_full S x k0 v ttl now habs
          (by rw [hlenS, hcfg, hlenl]) (by rw [hcfg]; exact hlru)
          (by rw [hlenS]; simp) hlast
        have hfilter : ((k0 :: ltail).filter (fun y => y != k0)) = ltail := by
          rw [List.filter_cons_of_neg (by simp)]
          refine List.filter_eq_self.mpr ?_
          intro y hy
          have : y ≠ k0 := by
            intro he
            subst he
            exact (List.nodup_cons.mp hndl).1 hy
          simpa using this
        refine ⟨?_, ?_, ?_⟩
        · rw [hstep.1, List.map_append, map_fst_mapDelete, hent, hfilter]
          rfl
        · rw [hstep.2.2.1, hev]
        · intro k0x hk0x
          have hk0eq : k0x = k0 := by
            simp at hk0x
            exact hk0x.symm
          subst hk0eq
          rw [mapGet_eq_none_iff, hstep.1, List.map_append, map_fst_mapDelete,
            hent, hfilter]
          simp only [List.mem_append]
          rintro (hmem | hmem)
          · exact (List.nodup_cons.mp hndl).1 hmem
          · have hk0x2 : k0x = x := by simpa using hmem
            subst hk0x2
            exact hxl (by simp)
  · exact ⟨by decide, by decide⟩

/-- C8 (witness): the general eviction statement instantiated with
`maxSize = 2` and three distinct keys inserted at time 0 with ttl 50. -/
theorem C8_lru_eviction_witness :
    (insertKeys (initialState ⟨.fin 1000, 2, true, false⟩) ["x", "y", "z"] 5
        (.fin 50) 0).entries.map Prod.fst = ["y", "z"] ∧
      (insertKeys (initialState ⟨.fin 1000, 2, true, false⟩) ["x", "y", "z"] 5
        (.fin 50) 0).stats.evictions = 1 ∧
      (∀ k0, (["x", "y", "z"] : List String).head? = some k0 →
        mapGet (insertKeys (initialState ⟨.fin 1000, 2, true, false⟩)
          ["x", "y", "z"] 5 (.fin 50) 0).entries k0 = none) :=
  (C8_lru_eviction.1 ⟨.fin 1000, 2, true, false⟩ ["x", "y", "z"] 5 (.fin 50) 0
    (by decide) (by decide) (by decide) (by decide) (by decide) (by decide))

end CacheSpec


